import Mathlib

/-!
Verification of the collaborative-filtering recommender (sparse-vector
similarity metrics, bounded top-N neighbor selection, sequential and
parallel item-based recommendation, user-based recommendation, and
similarity-matrix builders).

Modelling conventions, applied throughout:

* Go maps are modelled as association lists with a fixed (insertion)
  order; map iteration order in the model is the list order.  Claims that
  must hold for every iteration order quantify over the list.
* Go float64 values are modelled exactly: by an arbitrary linear ordered
  field for the recommender layer (whose logic is independent of the
  metric), instantiated at the rationals in concrete evaluations, and by
  the real numbers for the metric layer, where square roots occur.
  Floating-point rounding is out of scope; claims stated "within
  floating-point tolerance" become exact equalities in this model.
* Go runtime panics (index out of range, slice bounds out of range,
  integer division by zero) are modelled by Option: a function returns
  none exactly when the Go original panics.
* The recommender functions interact with the similarity metric only
  through the dispatcher simBetween; they are embedded with the
  similarity function as a parameter, so every theorem about them holds
  for each of the dispatched metrics.
-/

namespace Rec

/-- Association-list model of a Go map from int to values of type beta:
lookup of a key. -/
def lookupD {β : Type} (m : List (ℤ × β)) (k : ℤ) (d : β) : β :=
  (m.lookup k).getD d

/-- Association-list model of Go map assignment m[k] = v: replace the
binding in place when the key is present, otherwise append it. -/
def upsert {β : Type} (m : List (ℤ × β)) (k : ℤ) (v : β) : List (ℤ × β) :=
  match m with
  | [] => [(k, v)]
  | p :: rest => if p.1 = k then (k, v) :: rest else p :: upsert rest k v

/-- Keys of an association list, in iteration order. -/
def keys {β : Type} (m : List (ℤ × β)) : List ℤ :=
  m.map Prod.fst

/-- Ordering of neighbor candidates by score, the Less relation of the
minHeap type in the source (with ties allowed, as the heap only needs a
total preorder). -/
def scoreLE {α : Type} [LinearOrder α] (x y : ℤ × α) : Prop := x.2 ≤ y.2

instance {α : Type} [LinearOrder α] : DecidableRel (scoreLE (α := α)) :=
  fun x y => inferInstanceAs (Decidable (x.2 ≤ y.2))

instance {α : Type} [LinearOrder α] : IsTotal (ℤ × α) scoreLE :=
  ⟨fun a b => le_total a.2 b.2⟩

instance {α : Type} [LinearOrder α] : IsTrans (ℤ × α) scoreLE :=
  ⟨fun _ _ _ hab hbc => le_trans hab hbc⟩

/-- Contract-level model of container/heap (Go standard library, an
external collaborator) specialised to the repository's minHeap: the heap
state is kept as a list sorted ascending by score, so the root (index 0)
is a minimum element, heap.Push inserts, and heap.Pop removes the root.
Any correct binary heap refines this model up to the (unspecified)
identity of tied elements. -/
def heapPush {α : Type} [LinearOrder α] (h : List (ℤ × α)) (x : ℤ × α) :
    List (ℤ × α) :=
  List.orderedInsert scoreLE x h

/-- Loop of topNneighborsFromScores over the score map entries, carrying
the heap state.  Go panics with an index-out-of-range when the bound n is
already reached while the heap is still empty (that is, when n is not
positive and an entry is offered); the model returns none there. -/
def topNGo {α : Type} [LinearOrder α] (n : ℤ) :
    List (ℤ × α) → List (ℤ × α) → Option (List (ℤ × α))
  | h, [] => some h
  | h, x :: rest =>
    if (h.length : ℤ) < n then topNGo n (heapPush h x) rest
    else
      match h with
      | [] => none
      | root :: htail =>
        if root.2 < x.2 then topNGo n (heapPush htail x) rest
        else topNGo n (root :: htail) rest

/-- Model of topNneighborsFromScores: stream the entries of the score map
through a bounded min-heap, then drain.  The drain loop of the source
fills the result array from the last position to the first with
successive heap minima, so the result is the reverse of the heap's
ascending order. -/
def topNneighborsFromScores {α : Type} [LinearOrder α]
    (scores : List (ℤ × α)) (n : ℤ) : Option (List (ℤ × α)) :=
  (topNGo n [] scores).map List.reverse

end Rec

namespace Rec

/-- Sparse vector: a Go map from int id to weight, as an association
list in iteration order. -/
abbrev Vec (α : Type) : Type := List (ℤ × α)

/-- Dataset.UserRatings: user id to that user's item-rating map.  (The
Users and Movies counters of the Go struct play no role in the claims.) -/
abbrev Dataset (α : Type) : Type := List (ℤ × Vec α)

/-- ItemScore records a prediction/score for one item. -/
structure ItemScore (α : Type) where
  MovieID : ℤ
  Score : α
deriving DecidableEq, Repr

variable {α : Type} [LinearOrderedField α]

/-- Model of the util function abs of the source. -/
def abs (a : α) : α := if a < 0 then -a else a

/-- BuildItemIndex: item to (user to rating), built by iterating the
user index in order. -/
def BuildItemIndex (ds : Dataset α) : List (ℤ × Vec α) :=
  ds.foldl (fun itemIndex u =>
    u.2.foldl (fun itemIndex p =>
      upsert itemIndex p.1 (upsert (lookupD itemIndex p.1 []) u.1 p.2)) itemIndex) []

/-- Model of topKFromMap: list the entries of the score map, sort by
descending score (sort.Slice with comparator Score i greater than
Score j; tie order is unspecified in Go, the model uses a stable
insertion sort), and cut to the first k.  Go panics on top[:k] for
negative k when the list is longer than k. -/
def topKFromMap (scores : List (ℤ × α)) (k : ℤ) : Option (List (ItemScore α)) :=
  let top := (scores.map fun p => ItemScore.mk p.1 p.2).insertionSort
    (fun a b => b.Score ≤ a.Score)
  if (top.length : ℤ) > k then
    if 0 ≤ k then some (top.take k.toNat) else none
  else some top

/-- Candidate collection: all items of the item index that the target
has not rated, in index iteration order.  This loop appears verbatim in
RecommendItemBased and in RecommendItemBasedParallel. -/
def candidatesOf (itemIndex : List (ℤ × Vec α)) (userRatings : Vec α) : List ℤ :=
  (keys itemIndex).filter fun it => (userRatings.lookup it).isNone

/-- Similarity scores between one candidate item and every item the
target has rated (the simScores map, keyed by rated item). -/
def simScoresFor (sim : Vec α → Vec α → α) (itemIndex : List (ℤ × Vec α))
    (userRatings : Vec α) (itemV : ℤ) : List (ℤ × α) :=
  userRatings.map fun p => (p.1, sim (lookupD itemIndex p.1 []) (lookupD itemIndex itemV []))

/-- Per-candidate body of the sequential RecommendItemBased loop: pick
the top neighborK neighbors when neighborK is positive, otherwise use
all rated items, then form the weighted average. -/
def seqCandScore (sim : Vec α → Vec α → α) (itemIndex : List (ℤ × Vec α))
    (userRatings : Vec α) (nK : ℤ) (itemV : ℤ) : Option α :=
  let simScores := simScoresFor sim itemIndex userRatings itemV
  (if nK > 0 then topNneighborsFromScores simScores nK else some simScores).map
    fun neighbors =>
      let num := (neighbors.map fun nb => nb.2 * lookupD userRatings nb.1 0).sum
      let den := (neighbors.map fun nb => abs nb.2).sum
      if den ≠ 0 then num / den else 0

/-- Candidate loop of the sequential recommender, accumulating the
scores map in candidate order. -/
def seqScoresGo (sim : Vec α → Vec α → α) (itemIndex : List (ℤ × Vec α))
    (userRatings : Vec α) (nK : ℤ) :
    List ℤ → List (ℤ × α) → Option (List (ℤ × α))
  | [], m => some m
  | v :: rest, m =>
    match seqCandScore sim itemIndex userRatings nK v with
    | none => none
    | some sc => seqScoresGo sim itemIndex userRatings nK rest (upsert m v sc)

/-- Model of RecommendItemBased.  A missing target returns nil; the
metric enters only through the similarity function. -/
def RecommendItemBased (sim : Vec α → Vec α → α) (ds : Dataset α)
    (user topK nK : ℤ) : Option (List (ItemScore α)) :=
  match ds.lookup user with
  | none => some []
  | some userRatings =>
    let itemIndex := BuildItemIndex ds
    let candidates := candidatesOf itemIndex userRatings
    match seqScoresGo sim itemIndex userRatings nK candidates [] with
    | none => none
    | some scores => topKFromMap scores topK

/-- Model of scoreItem, the per-candidate body of the parallel workers.
Unlike the sequential loop it applies topNneighborsFromScores
unconditionally, so a non-positive neighborK faults (none) as soon as
the score map is non-empty. -/
def scoreItem (sim : Vec α → Vec α → α) (ds : Dataset α) (userRatings : Vec α)
    (itemIndex : List (ℤ × Vec α)) (itemV : ℤ) (nK : ℤ) : Option α :=
  let simScores := simScoresFor sim itemIndex userRatings itemV
  (topNneighborsFromScores simScores nK).map fun neighbors =>
    let num := (neighbors.map fun nb => nb.2 * lookupD userRatings nb.1 0).sum
    let den := (neighbors.map fun nb => if nb.2 < 0 then -nb.2 else nb.2).sum
    if den = 0 then 0 else num / den

/-- Worker slice w of the candidate list: candidates[start:end] with
start = w*chunk and end capped at the list length.  Go panics (slice
bounds out of range) when start exceeds the length. -/
def sliceOfWorker (cands : List ℤ) (chunk w : ℕ) : Option (List ℤ) :=
  if w * chunk ≤ cands.length then
    some ((cands.take (w * chunk + chunk)).drop (w * chunk))
  else none

/-- Slices handed to workers 0 .. W-1, in worker order. -/
def allSlices (cands : List ℤ) (chunk : ℕ) : ℕ → Option (List (List ℤ))
  | 0 => some []
  | W + 1 =>
    match allSlices cands chunk W, sliceOfWorker cands chunk W with
    | some pre, some s => some (pre ++ [s])
    | _, _ => none

/-- One worker's private partial score map over its slice. -/
def slicePartGo (sim : Vec α → Vec α → α) (ds : Dataset α) (userRatings : Vec α)
    (itemIndex : List (ℤ × Vec α)) (nK : ℤ) :
    List ℤ → List (ℤ × α) → Option (List (ℤ × α))
  | [], m => some m
  | v :: rest, m =>
    match scoreItem sim ds userRatings itemIndex v nK with
    | none => none
    | some sc => slicePartGo sim ds userRatings itemIndex nK rest (upsert m v sc)

/-- Partial maps of all workers.  The workers run concurrently on
private maps with no shared state; the model lists them in worker
order. -/
def partsOf (sim : Vec α → Vec α → α) (ds : Dataset α) (userRatings : Vec α)
    (itemIndex : List (ℤ × Vec α)) (nK : ℤ) :
    List (List ℤ) → Option (List (List (ℤ × α)))
  | [] => some []
  | s :: rest =>
    match slicePartGo sim ds userRatings itemIndex nK s [],
        partsOf sim ds userRatings itemIndex nK rest with
    | some part, some parts => some (part :: parts)
    | _, _ => none

/-- Merge loop: copy every worker's partial map into the shared scores
map.  The slices are disjoint, so the merged map does not depend on the
channel arrival order; the model merges in worker order. -/
def mergeParts (parts : List (List (ℤ × α))) : List (ℤ × α) :=
  parts.foldl (fun scores part =>
    part.foldl (fun scores p => upsert scores p.1 p.2) scores) []

/-- Model of RecommendItemBasedParallel: chunked slicing (chunk =
len/workers, raised to 1 when the quotient is 0), one goroutine per
worker running scoreItem over its slice, merge, final top-K cut.
workers = 0 is a Go division-by-zero panic (none); a negative worker
count runs no workers and merges nothing, as in Go. -/
def RecommendItemBasedParallel (sim : Vec α → Vec α → α) (ds : Dataset α)
    (user topK nK workers : ℤ) : Option (List (ItemScore α)) :=
  match ds.lookup user with
  | none => some []
  | some userRatings =>
    if workers = 0 then none
    else
      let itemIndex := BuildItemIndex ds
      let candidates := candidatesOf itemIndex userRatings
      let chunk := max 1 (candidates.length / workers.toNat)
      match allSlices candidates chunk workers.toNat with
      | none => none
      | some slices =>
        match partsOf sim ds userRatings itemIndex nK slices with
        | none => none
        | some parts => topKFromMap (mergeParts parts) topK

/-- Insertion into the candidate set of the user-based recommender
(Go map used as a set; the model keeps first-insertion order). -/
def insertSet (s : List ℤ) (k : ℤ) : List ℤ :=
  if k ∈ s then s else s ++ [k]

/-- Similarity loop of RecommendUserBased including the dead 0.05
threshold check: the similarity is recorded first, and the continue
guarded by the threshold skips an empty loop tail.  (The float literal
0.05 is the rational 1/20 in this exact model.) -/
def userSimsLoop (sim : Vec α → Vec α → α) (ds : Dataset α) (user : ℤ)
    (targetRatings : Vec α) : List (ℤ × α) :=
  ds.foldl (fun userSims u =>
    if u.1 = user then userSims
    else
      let m1 := upsert userSims u.1 (sim targetRatings u.2)
      if lookupD m1 u.1 0 < 1 / 20 then m1 else m1) []

/-- Similarity loop with the threshold check removed, the variant the
spec asks to compare against. -/
def userSimsLoopNoThreshold (sim : Vec α → Vec α → α) (ds : Dataset α) (user : ℤ)
    (targetRatings : Vec α) : List (ℤ × α) :=
  ds.foldl (fun userSims u =>
    if u.1 = user then userSims
    else upsert userSims u.1 (sim targetRatings u.2)) []

/-- Shared tail of the user-based recommender after the similarity map
is built: neighbor selection, candidate union, weighted prediction,
top-K cut. -/
def userBasedTail (sim : Vec α → Vec α → α) (ds : Dataset α)
    (targetRatings : Vec α) (userSims : List (ℤ × α)) (topK nK : ℤ) :
    Option (List (ItemScore α)) :=
  match topNneighborsFromScores userSims nK with
  | none => none
  | some neighbors =>
    if neighbors = [] then some []
    else
      let candidatesMap := neighbors.foldl (fun s nb =>
        (lookupD ds nb.1 []).foldl (fun s p =>
          if (targetRatings.lookup p.1).isSome then s else insertSet s p.1) s) []
      let scores := candidatesMap.foldl (fun m it =>
        let nd := neighbors.foldl (fun (nd : α × α) nb =>
          match (lookupD ds nb.1 []).lookup it with
          | some r => (nd.1 + nb.2 * r, nd.2 + abs nb.2)
          | none => nd) (0, 0)
        upsert m it (if nd.2 ≠ 0 then nd.1 / nd.2 else 0)) []
      topKFromMap scores topK

/-- Model of RecommendUserBased (neighbor selection is unconditional
here as well, so neighborK 0 faults whenever another user exists). -/
def RecommendUserBased (sim : Vec α → Vec α → α) (ds : Dataset α)
    (user topK nK : ℤ) : Option (List (ItemScore α)) :=
  match ds.lookup user with
  | none => some []
  | some targetRatings =>
    userBasedTail sim ds targetRatings (userSimsLoop sim ds user targetRatings) topK nK

/-- RecommendUserBased with the 0.05 threshold filter removed,
otherwise identical. -/
def RecommendUserBasedNoThreshold (sim : Vec α → Vec α → α) (ds : Dataset α)
    (user topK nK : ℤ) : Option (List (ItemScore α)) :=
  match ds.lookup user with
  | none => some []
  | some targetRatings =>
    userBasedTail sim ds targetRatings
      (userSimsLoopNoThreshold sim ds user targetRatings) topK nK

/-- Specification value of scoreItem on inputs where it succeeds (0 as
a dummy on the fault path, which positive neighborK never takes). -/
def scoreItemVal (sim : Vec α → Vec α → α) (ds : Dataset α) (userRatings : Vec α)
    (itemIndex : List (ℤ × Vec α)) (itemV : ℤ) (nK : ℤ) : α :=
  match scoreItem sim ds userRatings itemIndex itemV nK with
  | some q => q
  | none => 0

/-- Candidate list of the parallel recommender as a function of the
dataset and target (empty for a missing target, which returns before
slicing). -/
def parCandidates (ds : Dataset α) (user : ℤ) : List ℤ :=
  match ds.lookup user with
  | none => []
  | some ur => candidatesOf (BuildItemIndex ds) ur

end Rec

namespace ML

/-- Sparse float vector of the ml package, modelled over the reals. -/
abbrev VecR : Type := List (ℤ × ℝ)

/-- Accumulated sum of squares of a vector's stored weights (the suma
and sumb accumulators of Cosine). -/
def sumSq (a : VecR) : ℝ := (a.map fun p => p.2 * p.2).sum

/-- Dot product over the keys present in both vectors (keys of a absent
from b contribute nothing). -/
def dotCommon (a b : VecR) : ℝ :=
  (a.map fun p =>
    match b.lookup p.1 with
    | some vb => p.2 * vb
    | none => 0).sum

/-- Model of ml.Cosine: dot product over common keys divided by the
product of the full L2 norms, 0 when either norm vanishes. -/
noncomputable def Cosine (a b : VecR) : ℝ :=
  if sumSq a = 0 ∨ sumSq b = 0 then 0
  else dotCommon a b / (Real.sqrt (sumSq a) * Real.sqrt (sumSq b))

/-- Entries of a whose key is also a key of b, in a's iteration order. -/
def commonEntries (a b : VecR) : VecR :=
  a.filter fun p => (b.lookup p.1).isSome

/-- The common counter of ml.Pearson. -/
def commonCount (a b : VecR) : ℕ := (commonEntries a b).length

/-- Mean of a's values over the common keys. -/
noncomputable def meanA (a b : VecR) : ℝ :=
  ((commonEntries a b).map fun p => p.2).sum / (commonCount a b : ℝ)

/-- Mean of b's values over the common keys. -/
noncomputable def meanB (a b : VecR) : ℝ :=
  ((commonEntries a b).map fun p => Rec.lookupD b p.1 0).sum / (commonCount a b : ℝ)

/-- Centered cross sum of ml.Pearson. -/
noncomputable def pearsonNum (a b : VecR) : ℝ :=
  ((commonEntries a b).map fun p =>
    (p.2 - meanA a b) * (Rec.lookupD b p.1 0 - meanB a b)).sum

/-- Centered variance accumulator denA of ml.Pearson. -/
noncomputable def denA (a b : VecR) : ℝ :=
  ((commonEntries a b).map fun p => (p.2 - meanA a b) * (p.2 - meanA a b)).sum

/-- Centered variance accumulator denB of ml.Pearson. -/
noncomputable def denB (a b : VecR) : ℝ :=
  ((commonEntries a b).map fun p =>
    (Rec.lookupD b p.1 0 - meanB a b) * (Rec.lookupD b p.1 0 - meanB a b)).sum

/-- Model of ml.Pearson: 0 with fewer than 2 common keys, means over
common keys only, 0 on vanishing centered variance. -/
noncomputable def Pearson (a b : VecR) : ℝ :=
  if commonCount a b < 2 then 0
  else if denA a b = 0 ∨ denB a b = 0 then 0
  else pearsonNum a b / (Real.sqrt (denA a b) * Real.sqrt (denB a b))

/-- Number of keys of a that also occur in b (the inter counter of
ml.Jaccard / the intersection counter of jaccardIndex). -/
def interCount {β γ : Type} (a : List (ℤ × β)) (b : List (ℤ × γ)) : ℕ :=
  (a.filter fun p => (b.lookup p.1).isSome).length

/-- Number of distinct keys of the two vectors together (the union set
of ml.Jaccard). -/
def unionCard {β γ : Type} (a : List (ℤ × β)) (b : List (ℤ × γ)) : ℕ :=
  ((a.map Prod.fst ++ b.map Prod.fst).dedup).length

/-- Model of ml.Jaccard on key support, generic in the stored weight
type (never read) and in the result field, so it serves both the float
metric and the exact rational instantiation used in evaluations. -/
def Jaccard {β γ α' : Type} [DivisionRing α'] [DecidableEq α']
    (a : List (ℤ × β)) (b : List (ℤ × γ)) : α' :=
  if a.length = 0 ∧ b.length = 0 then 0
  else if unionCard a b = 0 then 0
  else (interCount a b : α') / (unionCard a b : α')

/-- Metric enumerator of the ml package. -/
inductive SimMetric
  | CosineSim
  | PearsonSim
  | JaccardSim
deriving DecidableEq, Repr

/-- Dispatch of simBetween; the default case of the switch falls back
to Cosine. -/
noncomputable def simBetween (a b : VecR) (metric : SimMetric) : ℝ :=
  match metric with
  | .CosineSim => Cosine a b
  | .PearsonSim => Pearson a b
  | .JaccardSim => Jaccard a b

/-- Composition of the generic recommender with the real metric
dispatcher, the exact shape of the ml package's RecommendItemBased. -/
noncomputable def RecommendItemBasedR (ds : Rec.Dataset ℝ) (user topK : ℤ)
    (metric : SimMetric) (nK : ℤ) : Option (List (Rec.ItemScore ℝ)) :=
  Rec.RecommendItemBased (fun a b => simBetween a b metric) ds user topK nK

/-- Composition of the generic parallel recommender with the real
metric dispatcher. -/
noncomputable def RecommendItemBasedParallelR (ds : Rec.Dataset ℝ) (user topK : ℤ)
    (metric : SimMetric) (nK workers : ℤ) : Option (List (Rec.ItemScore ℝ)) :=
  Rec.RecommendItemBasedParallel (fun a b => simBetween a b metric) ds user topK nK workers

end ML

namespace TP

/-- Interaction data of one user with one game. -/
structure GameInteraction where
  PlaytimeNorm : ℝ
  Rating : ℝ

/-- User of the TP algorithms package: steam id plus game map keyed by
app id. -/
structure User where
  SteamID : String
  Games : List (ℤ × GameInteraction)

/-- Zero-valued interaction (the Go zero value taken by absent keys). -/
def gameD : GameInteraction := ⟨0, 0⟩

/-- Intersection count of jaccardIndex (games in common). -/
def jIntersection (u1 u2 : User) : ℕ :=
  (u1.Games.filter fun p => (u2.Games.lookup p.1).isSome).length

/-- Union count of jaccardIndex: len1 + len2 - intersection. -/
def jUnion (u1 u2 : User) : ℕ :=
  u1.Games.length + u2.Games.length - jIntersection u1 u2

/-- Model of jaccardIndex, guarded against an empty union. -/
noncomputable def jaccardIndex (u1 u2 : User) : ℝ :=
  if jUnion u1 u2 = 0 then 0
  else (jIntersection u1 u2 : ℝ) / (jUnion u1 u2 : ℝ)

/-- All distinct games of either user (the allGames set). -/
def allGames (u1 u2 : User) : List ℤ :=
  (u1.Games.map Prod.fst ++ u2.Games.map Prod.fst).dedup

/-- Combined interaction weight of one user at one game, 0 if absent. -/
def wVal (u : User) (appID : ℤ) : ℝ :=
  match u.Games.lookup appID with
  | some g => g.PlaytimeNorm + g.Rating
  | none => 0

/-- Accumulated per-key minima of JaccardWeighted. -/
noncomputable def minSum (u1 u2 : User) : ℝ :=
  ((allGames u1 u2).map fun id =>
    if wVal u1 id < wVal u2 id then wVal u1 id else wVal u2 id).sum

/-- Accumulated per-key maxima of JaccardWeighted. -/
noncomputable def maxSum (u1 u2 : User) : ℝ :=
  ((allGames u1 u2).map fun id =>
    if wVal u1 id < wVal u2 id then wVal u2 id else wVal u1 id).sum

/-- Model of JaccardWeighted: min-sum over max-sum across the key
union, 0 when the max-sum vanishes. -/
noncomputable def JaccardWeighted (u1 u2 : User) : ℝ :=
  if maxSum u1 u2 = 0 then 0 else minSum u1 u2 / maxSum u1 u2

/-- Dot product of cosineSimilarity over games in common, combining the
playtime and rating coordinates. -/
def dotProduct (u1 u2 : User) : ℝ :=
  (u1.Games.map fun p =>
    match u2.Games.lookup p.1 with
    | some g2 => p.2.PlaytimeNorm * g2.PlaytimeNorm + p.2.Rating * g2.Rating
    | none => 0).sum

/-- Squared norm accumulator of cosineSimilarity. -/
def normSq (u : User) : ℝ :=
  (u.Games.map fun p =>
    p.2.PlaytimeNorm * p.2.PlaytimeNorm + p.2.Rating * p.2.Rating).sum

/-- Model of cosineSimilarity: the source takes square roots first and
guards on the rooted norms. -/
noncomputable def cosineSimilarity (u1 u2 : User) : ℝ :=
  if Real.sqrt (normSq u1) = 0 ∨ Real.sqrt (normSq u2) = 0 then 0
  else dotProduct u1 u2 / (Real.sqrt (normSq u1) * Real.sqrt (normSq u2))

/-- Common games of pearsonCorrelation, in u1's iteration order. -/
def commonGames (u1 u2 : User) : List ℤ :=
  (u1.Games.filter fun p => (u2.Games.lookup p.1).isSome).map Prod.fst

/-- Interaction of a user at a game id (total lookup; only applied to
common games). -/
def gVal (u : User) (id : ℤ) : GameInteraction :=
  (u.Games.lookup id).getD gameD

/-- Flattened value vector of u1 over the common games (playtime then
rating per game). -/
def values1 (u1 u2 : User) : List ℝ :=
  (commonGames u1 u2).flatMap fun id => [(gVal u1 id).PlaytimeNorm, (gVal u1 id).Rating]

/-- Flattened value vector of u2 over the common games. -/
def values2 (u1 u2 : User) : List ℝ :=
  (commonGames u1 u2).flatMap fun id => [(gVal u2 id).PlaytimeNorm, (gVal u2 id).Rating]

/-- Mean of values1. -/
noncomputable def pMean1 (u1 u2 : User) : ℝ :=
  (values1 u1 u2).sum / ((values1 u1 u2).length : ℝ)

/-- Mean of values2. -/
noncomputable def pMean2 (u1 u2 : User) : ℝ :=
  (values2 u1 u2).sum / ((values2 u1 u2).length : ℝ)

/-- Centered cross sum of pearsonCorrelation. -/
noncomputable def pNum (u1 u2 : User) : ℝ :=
  (((values1 u1 u2).zip (values2 u1 u2)).map fun p =>
    (p.1 - pMean1 u1 u2) * (p.2 - pMean2 u1 u2)).sum

/-- Centered variance accumulator denom1. -/
noncomputable def pDen1 (u1 u2 : User) : ℝ :=
  ((values1 u1 u2).map fun v => (v - pMean1 u1 u2) * (v - pMean1 u1 u2)).sum

/-- Centered variance accumulator denom2. -/
noncomputable def pDen2 (u1 u2 : User) : ℝ :=
  ((values2 u1 u2).map fun v => (v - pMean2 u1 u2) * (v - pMean2 u1 u2)).sum

/-- Model of pearsonCorrelation with its full guard sequence. -/
noncomputable def pearsonCorrelation (u1 u2 : User) : ℝ :=
  if (commonGames u1 u2).length < 2 then 0
  else if (values1 u1 u2).length = 0 then 0
  else if pDen1 u1 u2 = 0 ∨ pDen2 u1 u2 = 0 then 0
  else if Real.sqrt (pDen1 u1 u2 * pDen2 u1 u2) = 0 then 0
  else pNum u1 u2 / Real.sqrt (pDen1 u1 u2 * pDen2 u1 u2)

/-- Dense square matrix as rows of floats, the [][]float64 of the
builders. -/
abbrev Mat : Type := List (List ℝ)

/-- Zero-initialised n by n matrix (make of make). -/
def mkZeros (n : ℕ) : Mat := List.replicate n (List.replicate n 0)

/-- Write of one cell: M[i][j] = v.  Out-of-range writes are lost, as
with List.set; all writes of the builders are in range. -/
def set2 (M : Mat) (i j : ℕ) (v : ℝ) : Mat :=
  M.set i ((M.getD i []).set j v)

/-- Read of one cell M[i][j]. -/
def get2 (M : Mat) (i j : ℕ) : ℝ :=
  (M.getD i []).getD j 0

/-- Default user (never read by the builders: indices stay in range). -/
def dfltUser : User := ⟨"", []⟩

/-- Inner loop of the sequential builders: for j from i+1 to n-1 write
sim(users[i], users[j]) to both symmetric cells. -/
def simMatrixInner (f : User → User → ℝ) (users : List User) (i : ℕ) :
    List ℕ → Mat → Mat
  | [], M => M
  | j :: js, M =>
    let sim := f (users.getD i dfltUser) (users.getD j dfltUser)
    simMatrixInner f users i js (set2 (set2 M i j sim) j i sim)

/-- Outer loop of the sequential builders: set the diagonal cell, then
run the inner loop. -/
def simMatrixOuter (f : User → User → ℝ) (users : List User) :
    List ℕ → Mat → Mat
  | [], M => M
  | i :: is, M =>
    simMatrixOuter f users is
      (simMatrixInner f users i ((List.range users.length).drop (i + 1)) (set2 M i i 1))

/-- Shared skeleton of CosineSequential, PearsonSequential,
JaccardSequential and JaccardWeightedSequential (the four functions are
verbatim copies with the metric call swapped). -/
def simMatrixSeq (f : User → User → ℝ) (users : List User) : Mat :=
  simMatrixOuter f users (List.range users.length) (mkZeros users.length)

/-- Job list of the concurrent builders: all pairs (i, j) with i < j,
in emission order. -/
def pairJobs (n : ℕ) : List (ℕ × ℕ) :=
  (List.range n).flatMap fun i => ((List.range n).drop (i + 1)).map fun j => (i, j)

/-- Collector of the concurrent builders: apply each worker result
symmetrically under the mutex.  Distinct jobs write distinct cell
pairs, so the final matrix does not depend on arrival order; the model
applies results in job order. -/
def applyJobs (f : User → User → ℝ) (users : List User) :
    List (ℕ × ℕ) → Mat → Mat
  | [], M => M
  | ij :: rest, M =>
    let sim := f (users.getD ij.1 dfltUser) (users.getD ij.2 dfltUser)
    applyJobs f users rest (set2 (set2 M ij.1 ij.2 sim) ij.2 ij.1 sim)

/-- Diagonal initialisation of the concurrent builders (done before any
worker starts). -/
def initDiag : List ℕ → Mat → Mat
  | [], M => M
  | i :: is, M => initDiag is (set2 M i i 1)

/-- Shared skeleton of the four concurrent builders.  The worker count
only affects scheduling, never the merged result; it is kept for
interface fidelity. -/
def simMatrixConc (f : User → User → ℝ) (users : List User)
    (numWorkers : ℕ) : Mat :=
  applyJobs f users (pairJobs users.length)
    (initDiag (List.range users.length) (mkZeros users.length))

/-- CosineSequential of the TP package. -/
noncomputable def CosineSequential (users : List User) : Mat :=
  simMatrixSeq cosineSimilarity users

/-- CosineConcurrent of the TP package. -/
noncomputable def CosineConcurrent (users : List User) (numWorkers : ℕ) : Mat :=
  simMatrixConc cosineSimilarity users numWorkers

/-- PearsonSequential of the TP package. -/
noncomputable def PearsonSequential (users : List User) : Mat :=
  simMatrixSeq pearsonCorrelation users

/-- PearsonConcurrent of the TP package. -/
noncomputable def PearsonConcurrent (users : List User) (numWorkers : ℕ) : Mat :=
  simMatrixConc pearsonCorrelation users numWorkers

/-- JaccardSequential of the TP package. -/
noncomputable def JaccardSequential (users : List User) : Mat :=
  simMatrixSeq jaccardIndex users

/-- JaccardConcurrent of the TP package. -/
noncomputable def JaccardConcurrent (users : List User) (numWorkers : ℕ) : Mat :=
  simMatrixConc jaccardIndex users numWorkers

/-- JaccardWeightedSequential of the TP package. -/
noncomputable def JaccardWeightedSequential (users : List User) : Mat :=
  simMatrixSeq JaccardWeighted users

/-- JaccardWeightedConcurrent of the TP package. -/
noncomputable def JaccardWeightedConcurrent (users : List User) (numWorkers : ℕ) : Mat :=
  simMatrixConc JaccardWeighted users numWorkers

/-- Squareness predicate: n rows of n floats. -/
def isSquare (M : Mat) (n : ℕ) : Prop :=
  M.length = n ∧ ∀ row ∈ M, row.length = n

/-- Symmetry of a matrix on the first n ordinals. -/
def isSymm (M : Mat) (n : ℕ) : Prop :=
  ∀ a < n, ∀ b < n, get2 M a b = get2 M b a

/-- Bundle of the three matrix facts of claim C9 at one index pair. -/
def matrixOK (M : Mat) (n i j : ℕ) : Prop :=
  isSquare M n ∧ get2 M i i = 1 ∧ get2 M i j = get2 M j i

end TP

namespace Rec

/-- Rational instantiation of the Jaccard metric, used to run the
generic recommenders on concrete data exactly. -/
def JaccardQ : Vec ℚ → Vec ℚ → ℚ := fun a b => ML.Jaccard a b

/-- Example dataset: user 1 rated item 10; user 2 rated items 10, 20,
30 and 40, so user 1 has the three candidates 20, 30, 40. -/
def exDs3 : Dataset ℚ := [(1, [(10, 1)]), (2, [(10, 1), (20, 1), (30, 1), (40, 1)])]

/-- Example dataset: user 1 rated item 10; user 2 rated items 10 and
20, so user 1 has the single candidate 20. -/
def exDs2 : Dataset ℚ := [(1, [(10, 1)]), (2, [(10, 1), (20, 1)])]

/-- Example dataset whose target user 1 is present with an empty rating
map while item 10 exists. -/
def exDs0 : Dataset ℚ := [(1, []), (2, [(10, 1)])]

end Rec

namespace Rec

theorem upsert_of_not_mem {β : Type} {m : List (ℤ × β)} {k : ℤ} (v : β)
    (h : k ∉ keys m) : upsert m k v = m ++ [(k, v)] := by
  induction m with
  | nil => simp [upsert]
  | cons p rest ih =>
    have h1 : ¬ p.1 = k := by
      intro hh
      exact h (by simp [keys, hh])
    have h2 : k ∉ keys rest := by
      intro hh
      exact h (by simp [keys] at hh ⊢; exact Or.inr hh)
    simp only [upsert, if_neg h1, List.cons_append]
    rw [ih h2]

theorem keys_upsert_of_mem {β : Type} {m : List (ℤ × β)} {k : ℤ} (v : β)
    (h : k ∈ keys m) : keys (upsert m k v) = keys m := by
  induction m with
  | nil => simp [keys] at h
  | cons p rest ih =>
    by_cases h1 : p.1 = k
    · simp [upsert, if_pos h1, keys, h1]
    · have h2 : k ∈ keys rest := by
        simp [keys] at h ⊢
        rcases h with h | h
        · exact absurd h.symm h1
        · exact h
      simp only [upsert, if_neg h1, keys, List.map_cons]
      rw [show List.map Prod.fst (upsert rest k v) = keys (upsert rest k v) from rfl, ih h2]
      rfl

theorem nodup_keys_upsert {β : Type} {m : List (ℤ × β)} {k : ℤ} (v : β)
    (h : (keys m).Nodup) : (keys (upsert m k v)).Nodup := by
  by_cases hk : k ∈ keys m
  · rw [keys_upsert_of_mem v hk]; exact h
  · rw [upsert_of_not_mem v hk]
    simp only [keys, List.map_append]
    rw [List.nodup_append]
    refine ⟨h, by simp, ?_⟩
    intro a ha hb
    simp at hb
    subst hb
    exact hk ha

theorem lookup_upsert_self {β : Type} (m : List (ℤ × β)) (k : ℤ) (v : β) :
    (upsert m k v).lookup k = some v := by
  induction m with
  | nil => simp [upsert]
  | cons p rest ih =>
    by_cases h : p.1 = k
    · simp [upsert, if_pos h, List.lookup]
    · simp only [upsert, if_neg h, List.lookup]
      have : (k == p.1) = false := by
        simp [beq_iff_eq]
        intro hh
        exact h hh.symm
      rw [this]
      exact ih

theorem topNGo_spec {α : Type} [LinearOrder α] (n : ℤ) (hn : 1 ≤ n) :
    ∀ (rest h : List (ℤ × α)), h.Sorted scoreLE → (h.length : ℤ) ≤ n →
    ∃ h' discard, topNGo n h rest = some h' ∧
      h'.Sorted scoreLE ∧
      (h'.length : ℤ) = min n (h.length + rest.length) ∧
      (h : Multiset (ℤ × α)) + (rest : Multiset (ℤ × α)) =
        (h' : Multiset (ℤ × α)) + discard ∧
      (∀ d ∈ discard, ∀ x ∈ h', d.2 ≤ x.2) ∧
      ((h.length : ℤ) = n → ∀ lb : α, (∀ y ∈ h, lb ≤ y.2) → ∀ x ∈ h', lb ≤ x.2) := by
  intro rest
  induction rest with
  | nil =>
    intro h hs hlen
    refine ⟨h, 0, rfl, hs, ?_, by simp, by simp, fun _ lb hlb x hx => hlb x hx⟩
    simp only [List.length_nil, Nat.cast_zero, add_zero]
    omega
  | cons x rest ih =>
    intro h hs hlen
    by_cases hfull : (h.length : ℤ) < n
    · -- below capacity: unconditional push
      have hpush_len : (heapPush h x).length = h.length + 1 :=
        List.orderedInsert_length scoreLE h x
      have hpush_sorted : (heapPush h x).Sorted scoreLE :=
        List.Sorted.orderedInsert x h hs
      obtain ⟨h', D, heq, hsort, hlen', hmult, hdisc, hlb⟩ :=
        ih (heapPush h x) hpush_sorted (by push_cast [hpush_len]; omega)
      have hperm : (heapPush h x : Multiset (ℤ × α)) = x ::ₘ (h : Multiset (ℤ × α)) := by
        have := List.perm_orderedInsert scoreLE x h
        exact_mod_cast Multiset.coe_eq_coe.mpr this
      refine ⟨h', D, ?_, hsort, ?_, ?_, hdisc, ?_⟩
      · simpa [topNGo, if_pos hfull] using heq
      · rw [hlen']
        simp only [List.length_cons, hpush_len]
        push_cast
        omega
      · calc (h : Multiset (ℤ × α)) + ((x :: rest : List (ℤ × α)) : Multiset (ℤ × α))
            = (x ::ₘ (h : Multiset (ℤ × α))) + (rest : Multiset (ℤ × α)) := by
              simp [Multiset.cons_coe, Multiset.add_cons, Multiset.cons_add]
          _ = (heapPush h x : Multiset (ℤ × α)) + (rest : Multiset (ℤ × α)) := by
              rw [hperm]
          _ = (h' : Multiset (ℤ × α)) + D := hmult
      · intro habs
        omega
    · -- heap at capacity
      have hn_eq : (h.length : ℤ) = n := le_antisymm hlen (not_lt.mp hfull)
      match h, hs with
      | [], _ =>
        exfalso
        simp at hn_eq
        omega
      | root :: htail, hs =>
        have hlen1 : (htail.length : ℤ) + 1 = n := by
          simp only [List.length_cons] at hn_eq
          push_cast at hn_eq
          omega
        have hroot_le : ∀ y ∈ root :: htail, root.2 ≤ y.2 := by
          intro y hy
          rcases List.mem_cons.mp hy with hy | hy
          · rw [hy]
          · exact List.rel_of_sorted_cons hs y hy
        have htail_sorted : htail.Sorted scoreLE := hs.of_cons
        by_cases hcmp : root.2 < x.2
        · -- pop the root, push the new entry
          have hpush_len : (heapPush htail x).length = htail.length + 1 :=
            List.orderedInsert_length scoreLE htail x
          have hpush_sorted : (heapPush htail x).Sorted scoreLE :=
            List.Sorted.orderedInsert x htail htail_sorted
          have hlen2 : ((heapPush htail x).length : ℤ) = n := by
            push_cast [hpush_len]
            simp only [List.length_cons] at hn_eq
            push_cast at hn_eq
            omega
          obtain ⟨h', D, heq, hsort, hlen', hmult, hdisc, hlb⟩ :=
            ih (heapPush htail x) hpush_sorted (le_of_eq hlen2)
          have hmem_push : ∀ y ∈ heapPush htail x, root.2 ≤ y.2 := by
            intro y hy
            rcases (List.mem_orderedInsert scoreLE).mp hy with hy | hy
            · rw [hy]; exact le_of_lt hcmp
            · exact hroot_le y (List.mem_cons_of_mem root hy)
          have hroot_all : ∀ z ∈ h', root.2 ≤ z.2 :=
            hlb hlen2 root.2 hmem_push
          have hperm : (heapPush htail x : Multiset (ℤ × α)) =
              x ::ₘ (htail : Multiset (ℤ × α)) := by
            have := List.perm_orderedInsert scoreLE x htail
            exact_mod_cast Multiset.coe_eq_coe.mpr this
          refine ⟨h', root ::ₘ D, ?_, hsort, ?_, ?_, ?_, ?_⟩
          · show topNGo n (root :: htail) (x :: rest) = some h'
            simp only [topNGo]
            rw [if_neg hfull, if_pos hcmp]
            exact heq
          · rw [hlen']
            simp only [List.length_cons, hpush_len]
            push_cast
            omega
          · calc ((root :: htail : List (ℤ × α)) : Multiset (ℤ × α)) +
                  ((x :: rest : List (ℤ × α)) : Multiset (ℤ × α))
                = root ::ₘ ((htail : Multiset (ℤ × α)) +
                    (x ::ₘ (rest : Multiset (ℤ × α)))) := by
                  simp [Multiset.cons_coe, Multiset.cons_add, Multiset.add_cons]
              _ = root ::ₘ ((x ::ₘ (htail : Multiset (ℤ × α))) +
                    (rest : Multiset (ℤ × α))) := by
                  simp [Multiset.cons_add, Multiset.add_cons]
              _ = root ::ₘ ((heapPush htail x : Multiset (ℤ × α)) +
                    (rest : Multiset (ℤ × α))) := by rw [hperm]
              _ = root ::ₘ ((h' : Multiset (ℤ × α)) + D) := by rw [hmult]
              _ = (h' : Multiset (ℤ × α)) + (root ::ₘ D) := by
                  simp [Multiset.add_cons, Multiset.cons_add]
          · intro d hd
            rcases Multiset.mem_cons.mp hd with hd | hd
            · rw [hd]; exact hroot_all
            · exact hdisc d hd
          · intro _ lb hlbh z hz
            refine hlb hlen2 lb ?_ z hz
            intro y hy
            rcases (List.mem_orderedInsert scoreLE).mp hy with hy | hy
            · rw [hy]
              exact le_trans (hlbh root (List.mem_cons_self root htail)) (le_of_lt hcmp)
            · exact hlbh y (List.mem_cons_of_mem root hy)
        · -- discard the offered entry
          obtain ⟨h', D, heq, hsort, hlen', hmult, hdisc, hlb⟩ :=
            ih (root :: htail) hs hlen
          have hroot_all : ∀ z ∈ h', root.2 ≤ z.2 :=
            hlb hn_eq root.2 hroot_le
          refine ⟨h', x ::ₘ D, ?_, hsort, ?_, ?_, ?_, ?_⟩
          · show topNGo n (root :: htail) (x :: rest) = some h'
            simp only [topNGo]
            rw [if_neg hfull, if_neg hcmp]
            exact heq
          · rw [hlen']
            simp only [List.length_cons]
            push_cast
            omega
          · calc ((root :: htail : List (ℤ × α)) : Multiset (ℤ × α)) +
                  ((x :: rest : List (ℤ × α)) : Multiset (ℤ × α))
                = x ::ₘ (((root :: htail : List (ℤ × α)) : Multiset (ℤ × α)) +
                    (rest : Multiset (ℤ × α))) := by
                  simp only [← Multiset.cons_coe, Multiset.cons_add, Multiset.add_cons]
              _ = x ::ₘ ((h' : Multiset (ℤ × α)) + D) := by rw [hmult]
              _ = (h' : Multiset (ℤ × α)) + (x ::ₘ D) := by
                  simp [Multiset.add_cons, Multiset.cons_add]
          · intro d hd
            rcases Multiset.mem_cons.mp hd with hd | hd
            · rw [hd]
              intro z hz
              exact le_trans (not_lt.mp hcmp) (hroot_all z hz)
            · exact hdisc d hd
          · exact fun _ => hlb hn_eq

/-- Ranked-output facts about topNneighborsFromScores for a positive
bound: it succeeds, returns min(n, offered) entries sorted descending by
score, and the retained entries dominate every discarded entry. -/
theorem topN_spec {α : Type} [LinearOrder α] (scores : List (ℤ × α)) (n : ℤ)
    (hn : 1 ≤ n) :
    ∃ res discard, topNneighborsFromScores scores n = some res ∧
      res.Sorted (fun a b => b.2 ≤ a.2) ∧
      (res.length : ℤ) = min n scores.length ∧
      (scores : Multiset (ℤ × α)) = (res : Multiset (ℤ × α)) + discard ∧
      (∀ d ∈ discard, ∀ x ∈ res, d.2 ≤ x.2) := by
  obtain ⟨h', D, heq, hsort, hlen, hmult, hdisc, -⟩ :=
    topNGo_spec n hn scores [] List.sorted_nil (by simp; omega)
  refine ⟨h'.reverse, D, ?_, ?_, ?_, ?_, ?_⟩
  · simp [topNneighborsFromScores, heq]
  · exact List.pairwise_reverse.mpr hsort
  · simpa using hlen
  · rw [Multiset.coe_reverse]
    simpa using hmult
  · intro d hd x hx
    exact hdisc d hd x (List.mem_reverse.mp hx)

/-- Plain solvability of topNneighborsFromScores for a positive bound,
used by the recommenders. -/
theorem topN_isSome {α : Type} [LinearOrder α] (scores : List (ℤ × α)) (n : ℤ)
    (hn : 1 ≤ n) : ∃ res, topNneighborsFromScores scores n = some res := by
  obtain ⟨res, -, heq, -⟩ := topN_spec scores n hn
  exact ⟨res, heq⟩

end Rec

namespace Rec

theorem userSimsLoop_eq_noThreshold {α : Type} [LinearOrderedField α]
    (sim : Vec α → Vec α → α) (ds : Dataset α) (user : ℤ) (t : Vec α) :
    userSimsLoop sim ds user t = userSimsLoopNoThreshold sim ds user t := by
  simp [userSimsLoop, userSimsLoopNoThreshold]

end Rec

/-- Claim C5: the 0.05 similarity-threshold filter inside
RecommendUserBased has no observable effect: for every similarity
function, dataset, user, topK and neighborK the result equals the
variant with the threshold check removed, because the similarity is
recorded in the mapping before the check and the continue ends the loop
body anyway. -/
theorem C5_user_threshold_filter_noop {α : Type} [LinearOrderedField α]
    (sim : Rec.Vec α → Rec.Vec α → α) (ds : Rec.Dataset α) (user topK nK : ℤ) :
    Rec.RecommendUserBased sim ds user topK nK =
      Rec.RecommendUserBasedNoThreshold sim ds user topK nK := by
  unfold Rec.RecommendUserBased Rec.RecommendUserBasedNoThreshold
  cases ds.lookup user with
  | none => rfl
  | some t =>
    simp only []
    rw [Rec.userSimsLoop_eq_noThreshold]

/-- Claim C10, counterexample: in the dataset exDs0 the target user 1
is present with an empty rating map — it has no observed ratings — yet
RecommendItemBased returns the non-empty sequence [(10, 0)] rather than
an empty one. -/
theorem C10_counterexample :
    Rec.exDs0.lookup 1 = some [] ∧
      Rec.RecommendItemBased Rec.JaccardQ Rec.exDs0 1 5 1 =
        some [⟨10, 0⟩] := by
  constructor
  · rfl
  · simp [Rec.RecommendItemBased, Rec.BuildItemIndex, Rec.candidatesOf,
      Rec.seqScoresGo, Rec.seqCandScore, Rec.simScoresFor, Rec.abs,
      Rec.topNneighborsFromScores, Rec.topNGo, Rec.heapPush,
      Rec.topKFromMap, List.insertionSort, List.orderedInsert,
      Rec.lookupD, Rec.upsert, Rec.keys, Rec.JaccardQ, ML.Jaccard,
      ML.interCount, ML.unionCard, Rec.exDs0, List.lookup]

/-- Claim C10 as amended: a target user missing from the user index
yields the empty sequence, never a failure, for any similarity
function, topK and neighborK.  (A present target whose rating map is
empty instead gets every item scored 0, see the counterexample; the
dataset loader never builds such an entry.) -/
theorem C10_missing_target_empty_result {α : Type} [LinearOrderedField α]
    (sim : Rec.Vec α → Rec.Vec α → α) (ds : Rec.Dataset α) (user topK nK : ℤ)
    (h : ds.lookup user = none) :
    Rec.RecommendItemBased sim ds user topK nK = some [] := by
  unfold Rec.RecommendItemBased
  rw [h]

/-- Claim C10, witness: user 3 is absent from exDs2 and the recommender
returns the empty sequence on it. -/
theorem C10_witness :
    Rec.exDs2.lookup 3 = none ∧
      Rec.RecommendItemBased Rec.JaccardQ Rec.exDs2 3 5 1 = some [] :=
  ⟨by rfl, C10_missing_target_empty_result Rec.JaccardQ Rec.exDs2 3 5 1 (by rfl)⟩

/-- Claim C3: on the dataset exDs2 with neighborK 0 the item-based
sequential recommender does treat all rated items as neighbors and
completes normally, but the item-based parallel recommender and the
user-based recommender apply the top-N selector with bound 0 to a
non-empty score map, which reads the root of an empty heap — a Go
index-out-of-range panic (none in the model) — instead of the
documented use-all fallback. -/
theorem C3_neighborK_zero_faults :
    Rec.RecommendItemBased Rec.JaccardQ Rec.exDs2 1 5 0 = some [⟨20, 1⟩] ∧
      Rec.RecommendItemBasedParallel Rec.JaccardQ Rec.exDs2 1 5 0 1 = none ∧
      Rec.RecommendUserBased Rec.JaccardQ Rec.exDs2 1 5 0 = none := by
  refine ⟨?_, ?_, ?_⟩
  · simp [Rec.RecommendItemBased, Rec.BuildItemIndex, Rec.candidatesOf,
      Rec.seqScoresGo, Rec.seqCandScore, Rec.simScoresFor, Rec.abs,
      Rec.topKFromMap, List.insertionSort, List.orderedInsert,
      Rec.lookupD, Rec.upsert, Rec.keys, Rec.JaccardQ, ML.Jaccard,
      ML.interCount, ML.unionCard, Rec.exDs2, List.lookup]
    norm_num
  · simp [Rec.RecommendItemBasedParallel, Rec.BuildItemIndex, Rec.candidatesOf,
      Rec.allSlices, Rec.sliceOfWorker, Rec.partsOf, Rec.slicePartGo, Rec.scoreItem,
      Rec.simScoresFor, Rec.topNneighborsFromScores, Rec.topNGo, Rec.heapPush,
      Rec.lookupD, Rec.upsert, Rec.keys, Rec.JaccardQ, ML.Jaccard, ML.interCount,
      ML.unionCard, Rec.exDs2, List.lookup]
  · simp [Rec.RecommendUserBased, Rec.userSimsLoop, Rec.userBasedTail,
      Rec.topNneighborsFromScores, Rec.topNGo, Rec.heapPush, Rec.lookupD, Rec.upsert,
      Rec.JaccardQ, ML.Jaccard, ML.interCount, ML.unionCard, Rec.exDs2, List.lookup]

namespace Rec

theorem lookup_of_mem_nodup {β : Type} {m : List (ℤ × β)} {k : ℤ} {v : β}
    (hm : (keys m).Nodup) (h : (k, v) ∈ m) : m.lookup k = some v := by
  induction m with
  | nil => simp at h
  | cons p rest ih =>
    rcases List.mem_cons.mp h with h | h
    · rw [← h]
      simp [List.lookup]
    · have hk : k ∈ keys rest := by
        simp only [keys, List.mem_map]
        exact ⟨(k, v), h, rfl⟩
      have hne : ¬ k = p.1 := by
        intro hh
        subst hh
        exact (List.nodup_cons.mp hm).1 hk
      have hbeq : (k == p.1) = false := by
        simp [beq_iff_eq, hne]
      simp only [List.lookup, hbeq]
      exact ih (List.nodup_cons.mp hm).2 h

end Rec

/-- Claim C6: with fewer than 2 common keys both Pearson
implementations return exactly 0, whatever the vectors contain — the
map-based ml.Pearson and the per-game pearsonCorrelation of the
algorithms package. -/
theorem C6_pearson_two_common_keys (a b : ML.VecR) (u1 u2 : TP.User)
    (h1 : ML.commonCount a b < 2) (h2 : (TP.commonGames u1 u2).length < 2) :
    ML.Pearson a b = 0 ∧ TP.pearsonCorrelation u1 u2 = 0 := by
  constructor
  · unfold ML.Pearson
    rw [if_pos h1]
  · unfold TP.pearsonCorrelation
    rw [if_pos h2]

/-- Claim C6, witness: two vectors sharing exactly one key and two
users sharing exactly one game both get Pearson 0. -/
theorem C6_witness :
    ML.commonCount [((1:ℤ), (5:ℝ)), (2, 7)] [(1, 3)] < 2 ∧
      (TP.commonGames ⟨"a", [(1, ⟨1, 2⟩)]⟩ ⟨"b", [(1, ⟨3, 4⟩), (2, ⟨1, 1⟩)]⟩).length < 2 ∧
      ML.Pearson [((1:ℤ), (5:ℝ)), (2, 7)] [(1, 3)] = 0 ∧
      TP.pearsonCorrelation ⟨"a", [(1, ⟨1, 2⟩)]⟩ ⟨"b", [(1, ⟨3, 4⟩), (2, ⟨1, 1⟩)]⟩ = 0 := by
  have h1 : ML.commonCount [((1:ℤ), (5:ℝ)), (2, 7)] [(1, 3)] < 2 := by
    simp [ML.commonCount, ML.commonEntries, List.lookup]
  have h2 : (TP.commonGames ⟨"a", [(1, ⟨1, 2⟩)]⟩ ⟨"b", [(1, ⟨3, 4⟩), (2, ⟨1, 1⟩)]⟩).length < 2 := by
    simp [TP.commonGames, List.lookup]
  have hc := C6_pearson_two_common_keys _ _ _ _ h1 h2
  exact ⟨h1, h2, hc.1, hc.2⟩

/-- Claim C7, counterexample: the vector with the single stored weight
0 (and the user with one game of zero playtime and rating) is
non-empty, yet its cosine self-similarity is 0, not 1 — the zero-norm
guard fires first. -/
theorem C7_counterexample :
    ([((1:ℤ), (0:ℝ))] : ML.VecR) ≠ [] ∧
      ML.Cosine [(1, 0)] [(1, 0)] = 0 ∧
      (TP.User.mk "u" [(1, ⟨0, 0⟩)]).Games ≠ [] ∧
      TP.cosineSimilarity (TP.User.mk "u" [(1, ⟨0, 0⟩)]) (TP.User.mk "u" [(1, ⟨0, 0⟩)]) = 0 := by
  refine ⟨by simp, ?_, by simp, ?_⟩
  · simp [ML.Cosine, ML.sumSq]
  · simp [TP.cosineSimilarity, TP.normSq]

/-- Claim C7 as amended: cosine self-similarity is exactly 1 for every
vector (and every user) with a non-zero sum of squared weights — that
is, at least one stored weight is non-zero; a vector whose stored
weights are all 0 falls into the zero-norm guard and gets 0 instead.
Nodup keys is the Go map invariant. -/
theorem C7_cosine_self_one (a : ML.VecR) (u : TP.User)
    (ha : (Rec.keys a).Nodup) (hA : ML.sumSq a ≠ 0)
    (hu : (Rec.keys u.Games).Nodup) (hU : TP.normSq u ≠ 0) :
    ML.Cosine a a = 1 ∧ TP.cosineSimilarity u u = 1 := by
  have hdot : ML.dotCommon a a = ML.sumSq a := by
    unfold ML.dotCommon ML.sumSq
    apply congrArg List.sum
    apply List.map_congr_left
    intro p hp
    rw [Rec.lookup_of_mem_nodup ha (show (p.1, p.2) ∈ a by simpa using hp)]
  have hnn : 0 ≤ ML.sumSq a := by
    unfold ML.sumSq
    apply List.sum_nonneg
    intro x hx
    simp only [List.mem_map] at hx
    obtain ⟨p, -, rfl⟩ := hx
    exact mul_self_nonneg p.2
  have hpos : 0 < ML.sumSq a := lt_of_le_of_ne hnn (Ne.symm hA)
  have hdotU : TP.dotProduct u u = TP.normSq u := by
    unfold TP.dotProduct TP.normSq
    apply congrArg List.sum
    apply List.map_congr_left
    intro p hp
    rw [Rec.lookup_of_mem_nodup hu (show (p.1, p.2) ∈ u.Games by simpa using hp)]
  have hnnU : 0 ≤ TP.normSq u := by
    unfold TP.normSq
    apply List.sum_nonneg
    intro x hx
    simp only [List.mem_map] at hx
    obtain ⟨p, -, rfl⟩ := hx
    exact add_nonneg (mul_self_nonneg _) (mul_self_nonneg _)
  have hposU : 0 < TP.normSq u := lt_of_le_of_ne hnnU (Ne.symm hU)
  constructor
  · unfold ML.Cosine
    rw [if_neg (by push_neg; exact ⟨hA, hA⟩), hdot,
      Real.mul_self_sqrt (le_of_lt hpos), div_self hA]
  · have hsqrt : Real.sqrt (TP.normSq u) ≠ 0 :=
      ne_of_gt (Real.sqrt_pos.mpr hposU)
    unfold TP.cosineSimilarity
    rw [if_neg (by push_neg; exact ⟨hsqrt, hsqrt⟩), hdotU,
      Real.mul_self_sqrt (le_of_lt hposU), div_self hU]

/-- Claim C7, witness: concrete one-entry vector and one-game user with
non-zero weight have cosine self-similarity 1. -/
theorem C7_witness :
    (Rec.keys [((1:ℤ), (2:ℝ))]).Nodup ∧ ML.sumSq [((1:ℤ), (2:ℝ))] ≠ 0 ∧
      (Rec.keys (TP.User.mk "a" [(1, ⟨1, 0⟩)]).Games).Nodup ∧
      TP.normSq (TP.User.mk "a" [(1, ⟨1, 0⟩)]) ≠ 0 ∧
      ML.Cosine [((1:ℤ), (2:ℝ))] [((1:ℤ), (2:ℝ))] = 1 ∧
      TP.cosineSimilarity (TP.User.mk "a" [(1, ⟨1, 0⟩)]) (TP.User.mk "a" [(1, ⟨1, 0⟩)]) = 1 := by
  have ha : (Rec.keys [((1:ℤ), (2:ℝ))]).Nodup := by simp [Rec.keys]
  have hA : ML.sumSq [((1:ℤ), (2:ℝ))] ≠ 0 := by
    simp [ML.sumSq]
  have hu : (Rec.keys (TP.User.mk "a" [(1, ⟨1, 0⟩)]).Games).Nodup := by simp [Rec.keys]
  have hU : TP.normSq (TP.User.mk "a" [(1, ⟨1, 0⟩)]) ≠ 0 := by
    simp [TP.normSq]
  have hc := C7_cosine_self_one _ _ ha hA hu hU
  exact ⟨ha, hA, hu, hU, hc.1, hc.2⟩

/-- Claim C8: every similarity metric is a total function of its two
inputs (the models are plain functions into the reals), and every
division is guarded: a vanishing denominator — zero norm for Cosine,
zero centered variance for Pearson, empty key union for both Jaccard
variants, zero max-sum for the weighted Jaccard — yields the defined
result 0 rather than an arithmetic fault. -/
theorem C8_metrics_total_guarded (a b : ML.VecR) (u1 u2 : TP.User) :
    (ML.sumSq a = 0 ∨ ML.sumSq b = 0 → ML.Cosine a b = 0) ∧
      (ML.denA a b = 0 ∨ ML.denB a b = 0 → ML.Pearson a b = 0) ∧
      (ML.unionCard a b = 0 → (ML.Jaccard a b : ℝ) = 0) ∧
      (TP.jUnion u1 u2 = 0 → TP.jaccardIndex u1 u2 = 0) ∧
      (TP.maxSum u1 u2 = 0 → TP.JaccardWeighted u1 u2 = 0) := by
  refine ⟨?_, ?_, ?_, ?_, ?_⟩
  · intro h
    unfold ML.Cosine
    rw [if_pos h]
  · intro h
    unfold ML.Pearson
    by_cases hc : ML.commonCount a b < 2
    · rw [if_pos hc]
    · rw [if_neg hc, if_pos h]
  · intro h
    unfold ML.Jaccard
    by_cases he : a.length = 0 ∧ b.length = 0
    · rw [if_pos he]
    · rw [if_neg he, if_pos h]
  · intro h
    unfold TP.jaccardIndex
    rw [if_pos h]
  · intro h
    unfold TP.JaccardWeighted
    rw [if_pos h]

/-- Claim C8, witness: the degenerate case of two empty vectors and two
users without games exercises every guard and yields 0 everywhere. -/
theorem C8_witness :
    ML.Cosine [] [] = 0 ∧ ML.Pearson [] [] = 0 ∧ (ML.Jaccard ([] : ML.VecR) ([] : ML.VecR) : ℝ) = 0 ∧
      TP.jaccardIndex (TP.User.mk "x" []) (TP.User.mk "y" []) = 0 ∧
      TP.JaccardWeighted (TP.User.mk "x" []) (TP.User.mk "y" []) = 0 := by
  have h := C8_metrics_total_guarded [] [] (TP.User.mk "x" []) (TP.User.mk "y" [])
  exact ⟨h.1 (Or.inl (by simp [ML.sumSq])),
    h.2.1 (Or.inl (by simp [ML.denA, ML.commonEntries])),
    h.2.2.1 (by simp [ML.unionCard]),
    h.2.2.2.1 (by simp [TP.jUnion, TP.jIntersection]),
    h.2.2.2.2 (by simp [TP.maxSum, TP.allGames])⟩

/-- Claim C4: for every score map (any iteration order, hence the
quantification over the entry list) and every bound n of at least 1,
topNneighborsFromScores succeeds and returns exactly min(n, number of
candidates) entries, sorted descending by score, drawn from the offered
entries, and forming a true top-N: no discarded entry has a score
strictly greater than any returned score. -/
theorem C4_topN_bounded_selector {α : Type} [LinearOrder α]
    (scores : List (ℤ × α)) (n : ℤ) (hn : 1 ≤ n) :
    (Rec.topNneighborsFromScores scores n).isSome ∧
      (((Rec.topNneighborsFromScores scores n).getD []).length : ℤ) =
        min n scores.length ∧
      ((Rec.topNneighborsFromScores scores n).getD []).Sorted (fun a b => b.2 ≤ a.2) ∧
      (((Rec.topNneighborsFromScores scores n).getD [] : List (ℤ × α)) : Multiset (ℤ × α)) ≤
        (scores : Multiset (ℤ × α)) ∧
      ∀ d ∈ (scores : Multiset (ℤ × α)) -
          (((Rec.topNneighborsFromScores scores n).getD [] : List (ℤ × α)) : Multiset (ℤ × α)),
        ∀ r ∈ (Rec.topNneighborsFromScores scores n).getD [], d.2 ≤ r.2 := by
  obtain ⟨res, D, heq, hsort, hlen, hmult, hdisc⟩ := Rec.topN_spec scores n hn
  rw [heq]
  simp only [Option.isSome_some, Option.getD_some]
  have hdiff : (scores : Multiset (ℤ × α)) - (res : Multiset (ℤ × α)) = D := by
    rw [hmult, add_tsub_cancel_left]
  refine ⟨trivial, hlen, hsort, ?_, ?_⟩
  · rw [hmult]
    exact Multiset.le_add_right _ _
  · intro d hd r hr
    rw [hdiff] at hd
    exact hdisc d hd r hr

/-- Claim C4, witness: three offered entries with bound 2 keep the two
highest scores in descending order. -/
theorem C4_witness :
    (1 : ℤ) ≤ 2 ∧
      ((Rec.topNneighborsFromScores [((1:ℤ), (3:ℚ)), (2, 5), (3, 4)] 2).isSome ∧
        (((Rec.topNneighborsFromScores [((1:ℤ), (3:ℚ)), (2, 5), (3, 4)] 2).getD []).length : ℤ) =
          min 2 ([((1:ℤ), (3:ℚ)), (2, 5), (3, 4)].length : ℤ) ∧
        ((Rec.topNneighborsFromScores [((1:ℤ), (3:ℚ)), (2, 5), (3, 4)] 2).getD []).Sorted
          (fun a b => b.2 ≤ a.2) ∧
        (((Rec.topNneighborsFromScores [((1:ℤ), (3:ℚ)), (2, 5), (3, 4)] 2).getD [] :
            List (ℤ × ℚ)) : Multiset (ℤ × ℚ)) ≤
          (([((1:ℤ), (3:ℚ)), (2, 5), (3, 4)] : List (ℤ × ℚ)) : Multiset (ℤ × ℚ)) ∧
        ∀ d ∈ (([((1:ℤ), (3:ℚ)), (2, 5), (3, 4)] : List (ℤ × ℚ)) : Multiset (ℤ × ℚ)) -
            (((Rec.topNneighborsFromScores [((1:ℤ), (3:ℚ)), (2, 5), (3, 4)] 2).getD [] :
              List (ℤ × ℚ)) : Multiset (ℤ × ℚ)),
          ∀ r ∈ (Rec.topNneighborsFromScores [((1:ℤ), (3:ℚ)), (2, 5), (3, 4)] 2).getD [],
            d.2 ≤ r.2) :=
  ⟨by norm_num, C4_topN_bounded_selector [((1:ℤ), (3:ℚ)), (2, 5), (3, 4)] 2 (by norm_num)⟩

namespace TP

theorem isSquare_set2 {M : Mat} {n : ℕ} (i j : ℕ) (v : ℝ) (h : isSquare M n) :
    isSquare (set2 M i j v) n := by
  by_cases hi : i < M.length
  · obtain ⟨hlen, hrow⟩ := h
    constructor
    · simp [set2, hlen]
    · intro row hr
      rcases List.mem_or_eq_of_mem_set hr with hr | hr
      · exact hrow row hr
      · subst hr
        rw [List.length_set]
        rw [List.getD_eq_getElem?_getD, List.getElem?_eq_getElem hi]
        exact hrow _ (List.getElem_mem hi)
  · unfold set2
    rw [List.set_eq_of_length_le (le_of_not_lt hi)]
    exact h

theorem rowlen {M : Mat} {n : ℕ} (h : isSquare M n) {i : ℕ} (hi : i < n) :
    (M.getD i []).length = n := by
  have hiM : i < M.length := h.1 ▸ hi
  rw [List.getD_eq_getElem?_getD, List.getElem?_eq_getElem hiM]
  exact h.2 _ (List.getElem_mem hiM)

theorem get2_set2_same {M : Mat} {n : ℕ} (h : isSquare M n) {i j : ℕ}
    (hi : i < n) (hj : j < n) (v : ℝ) : get2 (set2 M i j v) i j = v := by
  have hiM : i < M.length := h.1 ▸ hi
  have hjr : j < (M.getD i []).length := by rw [rowlen h hi]; exact hj
  have hroweq : (M.set i ((M.getD i []).set j v)).getD i [] = (M.getD i []).set j v := by
    rw [List.getD_eq_getElem?_getD, List.getElem?_set_self hiM, Option.getD_some]
  unfold get2 set2
  rw [hroweq, List.getD_eq_getElem?_getD, List.getElem?_set_self hjr, Option.getD_some]

theorem get2_set2_ne {M : Mat} {i j a b : ℕ} (v : ℝ)
    (hne : a ≠ i ∨ b ≠ j) : get2 (set2 M i j v) a b = get2 M a b := by
  unfold get2 set2
  by_cases ha : a = i
  · subst ha
    have hb : b ≠ j := hne.resolve_left (fun hh => hh rfl)
    by_cases hiM : a < M.length
    · have hroweq : (M.set a ((M.getD a []).set j v)).getD a [] = (M.getD a []).set j v := by
        rw [List.getD_eq_getElem?_getD, List.getElem?_set_self hiM, Option.getD_some]
      rw [hroweq]
      simp only [List.getD_eq_getElem?_getD]
      rw [List.getElem?_set_ne (Ne.symm hb)]
    · rw [List.set_eq_of_length_le (le_of_not_lt hiM)]
  · have hroweq : (M.set i ((M.getD i []).set j v)).getD a [] = M.getD a [] := by
      simp only [List.getD_eq_getElem?_getD]
      rw [List.getElem?_set_ne (fun hh => ha hh.symm)]
    rw [hroweq]

/-- Value of a symmetric pair write at arbitrary coordinates. -/
theorem get2_pairWrite {M : Mat} {n : ℕ} (h : isSquare M n) {i j : ℕ}
    (hi : i < n) (hj : j < n) (s : ℝ) (a b : ℕ) :
    get2 (set2 (set2 M i j s) j i s) a b =
      if (a = i ∧ b = j) ∨ (a = j ∧ b = i) then s else get2 M a b := by
  by_cases h1 : a = j ∧ b = i
  · rw [h1.1, h1.2]
    rw [get2_set2_same (isSquare_set2 i j s h) hj hi]
    rw [if_pos (Or.inr ⟨rfl, rfl⟩)]
  · have hne1 : a ≠ j ∨ b ≠ i := by tauto
    rw [get2_set2_ne s hne1]
    by_cases h2 : a = i ∧ b = j
    · rw [h2.1, h2.2]
      rw [get2_set2_same h hi hj]
      rw [if_pos (Or.inl ⟨rfl, rfl⟩)]
    · have hne2 : a ≠ i ∨ b ≠ j := by tauto
      rw [get2_set2_ne s hne2, if_neg (by tauto)]

theorem isSymm_pairWrite {M : Mat} {n : ℕ} (h : isSquare M n) (hs : isSymm M n)
    {i j : ℕ} (hi : i < n) (hj : j < n) (s : ℝ) :
    isSymm (set2 (set2 M i j s) j i s) n := by
  intro a ha b hb
  rw [get2_pairWrite h hi hj, get2_pairWrite h hi hj]
  by_cases hc : (a = i ∧ b = j) ∨ (a = j ∧ b = i)
  · rw [if_pos hc, if_pos (by tauto)]
  · rw [if_neg hc, if_neg (by tauto)]
    exact hs a ha b hb

theorem diag_pairWrite {M : Mat} {n : ℕ} (h : isSquare M n) {i j a : ℕ}
    (hi : i < n) (hj : j < n) (hij : i ≠ j) (s : ℝ) :
    get2 (set2 (set2 M i j s) j i s) a a = get2 M a a := by
  rw [get2_pairWrite h hi hj]
  rw [if_neg]
  rintro (⟨rfl, rfl⟩ | ⟨rfl, rfl⟩) <;> exact hij rfl

theorem isSymm_set2_diag {M : Mat} {n : ℕ} (hs : isSymm M n) (i : ℕ) (v : ℝ) :
    isSymm (set2 M i i v) n := by
  intro a ha b hb
  by_cases hab : a = i ∧ b = i
  · obtain ⟨rfl, rfl⟩ := hab
    rfl
  · rw [get2_set2_ne v (by tauto), get2_set2_ne v (by tauto)]
    exact hs a ha b hb

theorem inner_props (f : User → User → ℝ) (users : List User) (n i : ℕ)
    (hi : i < n) :
    ∀ (js : List ℕ) (M : Mat), isSquare M n → (∀ j ∈ js, j < n ∧ i ≠ j) →
      isSquare (simMatrixInner f users i js M) n ∧
      (∀ a, get2 (simMatrixInner f users i js M) a a = get2 M a a) ∧
      (isSymm M n → isSymm (simMatrixInner f users i js M) n) := by
  intro js
  induction js with
  | nil => exact fun M hsq _ => ⟨hsq, fun a => rfl, fun hs => hs⟩
  | cons j js ih =>
    intro M hsq hjs
    obtain ⟨hjn, hij⟩ := hjs j (List.mem_cons_self j js)
    have hjs2 : ∀ j' ∈ js, j' < n ∧ i ≠ j' :=
      fun j' hj' => hjs j' (List.mem_cons_of_mem j hj')
    have hstep : simMatrixInner f users i (j :: js) M =
        simMatrixInner f users i js
          (set2 (set2 M i j (f (users.getD i dfltUser) (users.getD j dfltUser))) j i
            (f (users.getD i dfltUser) (users.getD j dfltUser))) := rfl
    have hsq2 : isSquare
        (set2 (set2 M i j (f (users.getD i dfltUser) (users.getD j dfltUser))) j i
          (f (users.getD i dfltUser) (users.getD j dfltUser))) n :=
      isSquare_set2 j i _ (isSquare_set2 i j _ hsq)
    obtain ⟨ih1, ih2, ih3⟩ := ih _ hsq2 hjs2
    refine ⟨by rw [hstep]; exact ih1, ?_, ?_⟩
    · intro a
      rw [hstep, ih2 a, diag_pairWrite hsq hi hjn hij]
    · intro hs
      rw [hstep]
      exact ih3 (isSymm_pairWrite hsq hs hi hjn _)

theorem outer_props (f : User → User → ℝ) (users : List User) (n : ℕ)
    (hn : n = users.length) :
    ∀ (is : List ℕ) (M : Mat), isSquare M n → (∀ i ∈ is, i < n) →
      isSquare (simMatrixOuter f users is M) n ∧
      (isSymm M n → isSymm (simMatrixOuter f users is M) n) ∧
      (∀ a, a < n → (get2 M a a = 1 ∨ a ∈ is) →
        get2 (simMatrixOuter f users is M) a a = 1) := by
  intro is
  induction is with
  | nil =>
    refine fun M hsq _ => ⟨hsq, fun hs => hs, ?_⟩
    intro a _ ha
    rcases ha with ha | ha
    · exact ha
    · simp at ha
  | cons i is ih =>
    intro M hsq his
    have hin : i < n := his i (List.mem_cons_self i is)
    have his2 : ∀ i' ∈ is, i' < n := fun i' h => his i' (List.mem_cons_of_mem i h)
    have hdropfact : ∀ j ∈ (List.range users.length).drop (i + 1), j < n ∧ i ≠ j := by
      intro j hj
      have hjn : j < n := by
        rw [hn]
        exact List.mem_range.mp (List.mem_of_mem_drop hj)
      refine ⟨hjn, ?_⟩
      have hmem : i ∈ (List.range users.length).take (i + 1) := by
        rw [List.take_range]
        refine List.mem_range.mpr ?_
        have : i < users.length := hn ▸ hin
        omega
      have hlt : i < j :=
        List.Sorted.rel_of_mem_take_of_mem_drop
          (List.sorted_lt_range users.length) hmem hj
      omega
    have hstep : simMatrixOuter f users (i :: is) M =
        simMatrixOuter f users is
          (simMatrixInner f users i ((List.range users.length).drop (i + 1))
            (set2 M i i 1)) := rfl
    have hsq1 : isSquare (set2 M i i 1) n := isSquare_set2 i i 1 hsq
    obtain ⟨hI1, hI2, hI3⟩ :=
      inner_props f users n i hin ((List.range users.length).drop (i + 1))
        (set2 M i i 1) hsq1 hdropfact
    obtain ⟨ihs, ihsym, ihdiag⟩ := ih _ hI1 his2
    refine ⟨by rw [hstep]; exact ihs, ?_, ?_⟩
    · intro hs
      rw [hstep]
      exact ihsym (hI3 (isSymm_set2_diag hs i 1))
    · intro a han ha
      rw [hstep]
      apply ihdiag a han
      by_cases hai : a = i
      · subst hai
        left
        rw [hI2, get2_set2_same hsq han han]
      · rcases ha with ha | ha
        · left
          rw [hI2, get2_set2_ne 1 (Or.inl hai)]
          exact ha
        · right
          exact (List.mem_cons.mp ha).resolve_left hai

end TP

namespace TP

theorem mem_drop_range {n i j : ℕ} (hj : j ∈ (List.range n).drop (i + 1)) :
    j < n ∧ i < j := by
  have hjn : j < n := List.mem_range.mp (List.mem_of_mem_drop hj)
  have hlen : 0 < ((List.range n).drop (i + 1)).length := List.length_pos.mpr
    (List.ne_nil_of_mem hj)
  have hin : i < n := by
    rw [List.length_drop, List.length_range] at hlen
    omega
  have hmem : i ∈ (List.range n).take (i + 1) := by
    rw [List.take_range]
    exact List.mem_range.mpr (by omega)
  exact ⟨hjn, List.Sorted.rel_of_mem_take_of_mem_drop (List.sorted_lt_range n) hmem hj⟩

theorem isSquare_mkZeros (n : ℕ) : isSquare (mkZeros n) n := by
  constructor
  · simp [mkZeros]
  · intro row hr
    rw [List.eq_of_mem_replicate hr]
    simp

theorem get2_mkZeros (n a b : ℕ) : get2 (mkZeros n) a b = 0 := by
  unfold get2 mkZeros
  by_cases ha : a < n
  · have hrow : (List.replicate n (List.replicate n (0:ℝ))).getD a [] =
        List.replicate n (0:ℝ) := by
      rw [List.getD_eq_getElem?_getD, List.getElem?_replicate_of_lt ha, Option.getD_some]
    rw [hrow]
    by_cases hb : b < n
    · rw [List.getD_eq_getElem?_getD, List.getElem?_replicate_of_lt hb, Option.getD_some]
    · rw [List.getD_eq_getElem?_getD, List.getElem?_replicate, if_neg hb, Option.getD_none]
  · have hrow : (List.replicate n (List.replicate n (0:ℝ))).getD a [] = [] := by
      rw [List.getD_eq_getElem?_getD, List.getElem?_replicate, if_neg ha, Option.getD_none]
    rw [hrow]
    simp

theorem isSymm_mkZeros (n : ℕ) : isSymm (mkZeros n) n := by
  intro a _ b _
  rw [get2_mkZeros, get2_mkZeros]

theorem initDiag_props (n : ℕ) :
    ∀ (is : List ℕ) (M : Mat), isSquare M n → (∀ i ∈ is, i < n) →
      isSquare (initDiag is M) n ∧
      (isSymm M n → isSymm (initDiag is M) n) ∧
      (∀ a, a < n → (get2 M a a = 1 ∨ a ∈ is) → get2 (initDiag is M) a a = 1) := by
  intro is
  induction is with
  | nil =>
    refine fun M hsq _ => ⟨hsq, fun hs => hs, ?_⟩
    intro a _ ha
    rcases ha with ha | ha
    · exact ha
    · simp at ha
  | cons i is ih =>
    intro M hsq his
    have hin : i < n := his i (List.mem_cons_self i is)
    have his2 : ∀ i' ∈ is, i' < n := fun i' h => his i' (List.mem_cons_of_mem i h)
    have hstep : initDiag (i :: is) M = initDiag is (set2 M i i 1) := rfl
    obtain ⟨ihs, ihsym, ihdiag⟩ := ih (set2 M i i 1) (isSquare_set2 i i 1 hsq) his2
    refine ⟨by rw [hstep]; exact ihs, ?_, ?_⟩
    · intro hs
      rw [hstep]
      exact ihsym (isSymm_set2_diag hs i 1)
    · intro a han ha
      rw [hstep]
      apply ihdiag a han
      by_cases hai : a = i
      · subst hai
        left
        exact get2_set2_same hsq han han 1
      · rcases ha with ha | ha
        · left
          rw [get2_set2_ne 1 (Or.inl hai)]
          exact ha
        · right
          exact (List.mem_cons.mp ha).resolve_left hai

theorem applyJobs_props (f : User → User → ℝ) (users : List User) (n : ℕ) :
    ∀ (jobs : List (ℕ × ℕ)) (M : Mat), isSquare M n →
      (∀ p ∈ jobs, p.1 < n ∧ p.2 < n ∧ p.1 ≠ p.2) →
      isSquare (applyJobs f users jobs M) n ∧
      (∀ a, get2 (applyJobs f users jobs M) a a = get2 M a a) ∧
      (isSymm M n → isSymm (applyJobs f users jobs M) n) := by
  intro jobs
  induction jobs with
  | nil => exact fun M hsq _ => ⟨hsq, fun a => rfl, fun hs => hs⟩
  | cons p jobs ih =>
    intro M hsq hjobs
    obtain ⟨hp1, hp2, hp12⟩ := hjobs p (List.mem_cons_self p jobs)
    have hjobs2 : ∀ q ∈ jobs, q.1 < n ∧ q.2 < n ∧ q.1 ≠ q.2 :=
      fun q hq => hjobs q (List.mem_cons_of_mem p hq)
    have hstep : applyJobs f users (p :: jobs) M =
        applyJobs f users jobs
          (set2 (set2 M p.1 p.2 (f (users.getD p.1 dfltUser) (users.getD p.2 dfltUser)))
            p.2 p.1 (f (users.getD p.1 dfltUser) (users.getD p.2 dfltUser))) := rfl
    have hsq2 : isSquare
        (set2 (set2 M p.1 p.2 (f (users.getD p.1 dfltUser) (users.getD p.2 dfltUser)))
          p.2 p.1 (f (users.getD p.1 dfltUser) (users.getD p.2 dfltUser))) n :=
      isSquare_set2 _ _ _ (isSquare_set2 _ _ _ hsq)
    obtain ⟨ih1, ih2, ih3⟩ := ih _ hsq2 hjobs2
    refine ⟨by rw [hstep]; exact ih1, ?_, ?_⟩
    · intro a
      rw [hstep, ih2 a, diag_pairWrite hsq hp1 hp2 hp12]
    · intro hs
      rw [hstep]
      exact ih3 (isSymm_pairWrite hsq hs hp1 hp2 _)

theorem pairJobs_mem {n : ℕ} : ∀ p ∈ pairJobs n, p.1 < n ∧ p.2 < n ∧ p.1 ≠ p.2 := by
  intro p hp
  unfold pairJobs at hp
  rw [List.mem_flatMap] at hp
  obtain ⟨i, hi, hp⟩ := hp
  rw [List.mem_map] at hp
  obtain ⟨j, hj, rfl⟩ := hp
  obtain ⟨hjn, hij⟩ := mem_drop_range hj
  exact ⟨List.mem_range.mp hi, hjn, by omega⟩

theorem simMatrixSeq_props (f : User → User → ℝ) (users : List User) :
    isSquare (simMatrixSeq f users) users.length ∧
      isSymm (simMatrixSeq f users) users.length ∧
      (∀ a, a < users.length → get2 (simMatrixSeq f users) a a = 1) := by
  obtain ⟨h1, h2, h3⟩ := outer_props f users users.length rfl
    (List.range users.length) (mkZeros users.length)
    (isSquare_mkZeros users.length) (fun i hi => List.mem_range.mp hi)
  exact ⟨h1, h2 (isSymm_mkZeros users.length),
    fun a ha => h3 a ha (Or.inr (List.mem_range.mpr ha))⟩

theorem simMatrixConc_props (f : User → User → ℝ) (users : List User) (w : ℕ) :
    isSquare (simMatrixConc f users w) users.length ∧
      isSymm (simMatrixConc f users w) users.length ∧
      (∀ a, a < users.length → get2 (simMatrixConc f users w) a a = 1) := by
  unfold simMatrixConc
  obtain ⟨hi1, hi2, hi3⟩ := initDiag_props users.length
    (List.range users.length) (mkZeros users.length)
    (isSquare_mkZeros users.length) (fun i hi => List.mem_range.mp hi)
  obtain ⟨h1, h2, h3⟩ := applyJobs_props f users users.length
    (pairJobs users.length) _ hi1 pairJobs_mem
  refine ⟨h1, h3 (hi2 (isSymm_mkZeros users.length)), ?_⟩
  intro a ha
  rw [h2 a]
  exact hi3 a ha (Or.inr (List.mem_range.mpr ha))

end TP

/-- Claim C9: every similarity-matrix builder — sequential and
concurrent, for the cosine, Pearson, plain Jaccard and weighted Jaccard
metrics — returns an n-by-n matrix with unit diagonal that is symmetric
at every pair of in-range ordinals.  (The concurrent builders write
each unordered pair exactly once under the mutex, so the merged matrix
is independent of arrival order; the model applies results in job
order.) -/
theorem C9_matrix_builders_square_symmetric (users : List TP.User) (w : ℕ)
    (i j : ℕ) (hi : i < users.length) (hj : j < users.length) :
    TP.matrixOK (TP.CosineSequential users) users.length i j ∧
      TP.matrixOK (TP.CosineConcurrent users w) users.length i j ∧
      TP.matrixOK (TP.PearsonSequential users) users.length i j ∧
      TP.matrixOK (TP.PearsonConcurrent users w) users.length i j ∧
      TP.matrixOK (TP.JaccardSequential users) users.length i j ∧
      TP.matrixOK (TP.JaccardConcurrent users w) users.length i j ∧
      TP.matrixOK (TP.JaccardWeightedSequential users) users.length i j ∧
      TP.matrixOK (TP.JaccardWeightedConcurrent users w) users.length i j := by
  have hseq : ∀ f, TP.matrixOK (TP.simMatrixSeq f users) users.length i j := by
    intro f
    obtain ⟨h1, h2, h3⟩ := TP.simMatrixSeq_props f users
    exact ⟨h1, h3 i hi, h2 i hi j hj⟩
  have hconc : ∀ f, TP.matrixOK (TP.simMatrixConc f users w) users.length i j := by
    intro f
    obtain ⟨h1, h2, h3⟩ := TP.simMatrixConc_props f users w
    exact ⟨h1, h3 i hi, h2 i hi j hj⟩
  exact ⟨hseq _, hconc _, hseq _, hconc _, hseq _, hconc _, hseq _, hconc _⟩

/-- Claim C9, witness: the two-user list with 3 workers at the index
pair (0, 1). -/
theorem C9_witness :
    0 < ([TP.User.mk "a" [(1, ⟨1, 0⟩)], TP.User.mk "b" [(1, ⟨0, 1⟩)]] : List TP.User).length ∧
      1 < ([TP.User.mk "a" [(1, ⟨1, 0⟩)], TP.User.mk "b" [(1, ⟨0, 1⟩)]] : List TP.User).length ∧
      TP.matrixOK
        (TP.CosineSequential [TP.User.mk "a" [(1, ⟨1, 0⟩)], TP.User.mk "b" [(1, ⟨0, 1⟩)]])
        ([TP.User.mk "a" [(1, ⟨1, 0⟩)], TP.User.mk "b" [(1, ⟨0, 1⟩)]] : List TP.User).length 0 1 ∧
      TP.matrixOK
        (TP.JaccardConcurrent [TP.User.mk "a" [(1, ⟨1, 0⟩)], TP.User.mk "b" [(1, ⟨0, 1⟩)]] 3)
        ([TP.User.mk "a" [(1, ⟨1, 0⟩)], TP.User.mk "b" [(1, ⟨0, 1⟩)]] : List TP.User).length 0 1 := by
  have h := C9_matrix_builders_square_symmetric
    [TP.User.mk "a" [(1, ⟨1, 0⟩)], TP.User.mk "b" [(1, ⟨0, 1⟩)]] 3 0 1
    (by simp) (by simp)
  exact ⟨by simp, by simp, h.1, h.2.2.2.2.2.1⟩

namespace Rec

variable {α : Type} [LinearOrderedField α]

theorem scoreItem_eq_some_val (sim : Vec α → Vec α → α) (ds : Dataset α)
    (ur : Vec α) (itemIndex : List (ℤ × Vec α)) (v nK : ℤ) (hnk : 1 ≤ nK) :
    scoreItem sim ds ur itemIndex v nK =
      some (scoreItemVal sim ds ur itemIndex v nK) := by
  obtain ⟨res, hres⟩ := topN_isSome (simScoresFor sim itemIndex ur v) nK hnk
  unfold scoreItemVal scoreItem
  simp [hres]

theorem seqCandScore_eq_scoreItem (sim : Vec α → Vec α → α) (ds : Dataset α)
    (itemIndex : List (ℤ × Vec α)) (ur : Vec α) (nK v : ℤ) (hnk : 0 < nK) :
    seqCandScore sim itemIndex ur nK v = scoreItem sim ds ur itemIndex v nK := by
  simp only [seqCandScore, scoreItem]
  rw [if_pos hnk]
  apply Option.map_congr
  intro nbs _
  simp only [Rec.abs]
  by_cases h : (nbs.map fun nb => if nb.2 < 0 then -nb.2 else nb.2).sum = 0
  · simp [h]
  · simp [h]

theorem seqScoresGo_eq (sim : Vec α → Vec α → α) (ds : Dataset α)
    (itemIndex : List (ℤ × Vec α)) (ur : Vec α) (nK : ℤ) (hnk : 1 ≤ nK) :
    ∀ (cands : List ℤ) (m : List (ℤ × α)), (keys m ++ cands).Nodup →
      seqScoresGo sim itemIndex ur nK cands m =
        some (m ++ cands.map fun v => (v, scoreItemVal sim ds ur itemIndex v nK)) := by
  intro cands
  induction cands with
  | nil => intro m _; simp [seqScoresGo]
  | cons v rest ih =>
    intro m hnd
    have hv : v ∉ keys m := by
      intro hmem
      have := List.disjoint_of_nodup_append hnd
      exact this hmem (List.mem_cons_self v rest)
    have hcand : seqCandScore sim itemIndex ur nK v =
        some (scoreItemVal sim ds ur itemIndex v nK) := by
      rw [seqCandScore_eq_scoreItem sim ds itemIndex ur nK v (by omega)]
      exact scoreItem_eq_some_val sim ds ur itemIndex v nK hnk
    have hup : upsert m v (scoreItemVal sim ds ur itemIndex v nK) =
        m ++ [(v, scoreItemVal sim ds ur itemIndex v nK)] :=
      upsert_of_not_mem _ hv
    have hnd2 : (keys (m ++ [(v, scoreItemVal sim ds ur itemIndex v nK)]) ++ rest).Nodup := by
      have : keys (m ++ [(v, scoreItemVal sim ds ur itemIndex v nK)]) ++ rest =
          keys m ++ (v :: rest) := by
        simp [keys]
      rw [this]
      exact hnd
    calc seqScoresGo sim itemIndex ur nK (v :: rest) m
        = seqScoresGo sim itemIndex ur nK rest
            (upsert m v (scoreItemVal sim ds ur itemIndex v nK)) := by
          simp only [seqScoresGo, hcand]
      _ = some ((m ++ [(v, scoreItemVal sim ds ur itemIndex v nK)]) ++
            rest.map fun v' => (v', scoreItemVal sim ds ur itemIndex v' nK)) := by
          rw [hup]
          exact ih _ hnd2
      _ = some (m ++ (v :: rest).map fun v' => (v', scoreItemVal sim ds ur itemIndex v' nK)) := by
          simp

theorem foldl_preserve {γ δ : Type} {P : γ → Prop} (f : γ → δ → γ) :
    ∀ (l : List δ) (b : γ), P b → (∀ c a, a ∈ l → P c → P (f c a)) → P (l.foldl f b) := by
  intro l
  induction l with
  | nil => exact fun b hb _ => hb
  | cons a l ih =>
    intro b hb hstep
    exact ih (f b a) (hstep b a (List.mem_cons_self a l) hb)
      (fun c a' ha' hc => hstep c a' (List.mem_cons_of_mem a ha') hc)

theorem BuildItemIndex_nodup_keys (ds : Dataset α) :
    (keys (BuildItemIndex ds)).Nodup := by
  unfold BuildItemIndex
  apply foldl_preserve (P := fun idx => (keys idx).Nodup)
  · simp [keys]
  · intro idx u _ hidx
    apply foldl_preserve (P := fun idx => (keys idx).Nodup)
    · exact hidx
    · intro idx2 p _ h2
      exact nodup_keys_upsert _ h2

theorem candidatesOf_nodup (itemIndex : List (ℤ × Vec α)) (ur : Vec α)
    (h : (keys itemIndex).Nodup) : (candidatesOf itemIndex ur).Nodup :=
  List.Nodup.filter _ h

/-- Sequential pipeline under a positive neighborK: the score map lists
every candidate with its scoreItem value, in candidate order. -/
theorem RecommendItemBased_eq (sim : Vec α → Vec α → α) (ds : Dataset α)
    (user topK nK : ℤ) (ur : Vec α) (hur : ds.lookup user = some ur)
    (hnk : 1 ≤ nK) :
    RecommendItemBased sim ds user topK nK =
      topKFromMap ((candidatesOf (BuildItemIndex ds) ur).map fun v =>
        (v, scoreItemVal sim ds ur (BuildItemIndex ds) v nK)) topK := by
  unfold RecommendItemBased
  rw [hur]
  simp only []
  rw [seqScoresGo_eq sim ds (BuildItemIndex ds) ur nK hnk
    (candidatesOf (BuildItemIndex ds) ur) [] (by
      simp only [keys, List.map_nil, List.nil_append]
      exact candidatesOf_nodup _ _ (BuildItemIndex_nodup_keys ds))]
  simp

end Rec

namespace Rec

variable {α : Type} [LinearOrderedField α]

theorem slicePartGo_eq (sim : Vec α → Vec α → α) (ds : Dataset α)
    (ur : Vec α) (itemIndex : List (ℤ × Vec α)) (nK : ℤ) (hnk : 1 ≤ nK) :
    ∀ (s : List ℤ) (m : List (ℤ × α)), (keys m ++ s).Nodup →
      slicePartGo sim ds ur itemIndex nK s m =
        some (m ++ s.map fun v => (v, scoreItemVal sim ds ur itemIndex v nK)) := by
  intro s
  induction s with
  | nil => intro m _; simp [slicePartGo]
  | cons v rest ih =>
    intro m hnd
    have hv : v ∉ keys m := by
      intro hmem
      exact List.disjoint_of_nodup_append hnd hmem (List.mem_cons_self v rest)
    have hup : upsert m v (scoreItemVal sim ds ur itemIndex v nK) =
        m ++ [(v, scoreItemVal sim ds ur itemIndex v nK)] :=
      upsert_of_not_mem _ hv
    have hnd2 : (keys (m ++ [(v, scoreItemVal sim ds ur itemIndex v nK)]) ++ rest).Nodup := by
      have : keys (m ++ [(v, scoreItemVal sim ds ur itemIndex v nK)]) ++ rest =
          keys m ++ (v :: rest) := by simp [keys]
      rw [this]
      exact hnd
    calc slicePartGo sim ds ur itemIndex nK (v :: rest) m
        = slicePartGo sim ds ur itemIndex nK rest
            (upsert m v (scoreItemVal sim ds ur itemIndex v nK)) := by
          simp only [slicePartGo, scoreItem_eq_some_val sim ds ur itemIndex v nK hnk]
      _ = some ((m ++ [(v, scoreItemVal sim ds ur itemIndex v nK)]) ++
            rest.map fun v' => (v', scoreItemVal sim ds ur itemIndex v' nK)) := by
          rw [hup]
          exact ih _ hnd2
      _ = some (m ++ (v :: rest).map fun v' => (v', scoreItemVal sim ds ur itemIndex v' nK)) := by
          simp

theorem partsOf_eq (sim : Vec α → Vec α → α) (ds : Dataset α)
    (ur : Vec α) (itemIndex : List (ℤ × Vec α)) (nK : ℤ) (hnk : 1 ≤ nK) :
    ∀ (slices : List (List ℤ)), (∀ s ∈ slices, s.Nodup) →
      partsOf sim ds ur itemIndex nK slices =
        some (slices.map fun s => s.map fun v =>
          (v, scoreItemVal sim ds ur itemIndex v nK)) := by
  intro slices
  induction slices with
  | nil => intro; rfl
  | cons s rest ih =>
    intro hnd
    have hs : s.Nodup := hnd s (List.mem_cons_self s rest)
    have hpart : slicePartGo sim ds ur itemIndex nK s [] =
        some (s.map fun v => (v, scoreItemVal sim ds ur itemIndex v nK)) := by
      have := slicePartGo_eq sim ds ur itemIndex nK hnk s [] (by simpa [keys] using hs)
      simpa using this
    have hrest := ih (fun s2 h => hnd s2 (List.mem_cons_of_mem s h))
    simp only [partsOf, hpart, hrest]
    rfl

theorem foldl_upsert_append (part : List (ℤ × α)) :
    ∀ (acc : List (ℤ × α)), (keys acc ++ keys part).Nodup →
      part.foldl (fun m p => upsert m p.1 p.2) acc = acc ++ part := by
  induction part with
  | nil => intro acc _; simp
  | cons p rest ih =>
    intro acc hnd
    have hp : p.1 ∉ keys acc := by
      intro hmem
      exact List.disjoint_of_nodup_append hnd hmem (by simp [keys])
    have hup : upsert acc p.1 p.2 = acc ++ [p] := by
      have := upsert_of_not_mem (m := acc) p.2 hp
      simpa using this
    have hnd2 : (keys (acc ++ [p]) ++ keys rest).Nodup := by
      have : keys (acc ++ [p]) ++ keys rest = keys acc ++ keys (p :: rest) := by
        simp [keys]
      rw [this]
      exact hnd
    calc (p :: rest).foldl (fun m q => upsert m q.1 q.2) acc
        = rest.foldl (fun m q => upsert m q.1 q.2) (acc ++ [p]) := by
          simp only [List.foldl_cons, hup]
      _ = (acc ++ [p]) ++ rest := ih (acc ++ [p]) hnd2
      _ = acc ++ (p :: rest) := by simp

theorem mergeParts_eq (parts : List (List (ℤ × α)))
    (hnd : (keys parts.flatten).Nodup) : mergeParts parts = parts.flatten := by
  unfold mergeParts
  suffices h : ∀ (acc : List (ℤ × α)), (keys acc ++ keys parts.flatten).Nodup →
      parts.foldl (fun scores part =>
        part.foldl (fun scores p => upsert scores p.1 p.2) scores) acc =
        acc ++ parts.flatten by
    have := h [] (by simpa [keys] using hnd)
    simpa using this
  clear hnd
  induction parts with
  | nil => intro acc _; simp
  | cons part rest ih =>
    intro acc hnd
    have hnd1 : (keys acc ++ keys part).Nodup := by
      have hsub : List.Sublist (keys acc ++ keys part)
          (keys acc ++ keys (part :: rest).flatten) := by
        apply List.Sublist.append_left
        simp only [List.flatten_cons, keys, List.map_append]
        exact List.sublist_append_left _ _
      exact List.Nodup.sublist hsub hnd
    have hstep := foldl_upsert_append part acc hnd1
    simp only [List.foldl_cons, hstep]
    have hnd2 : (keys (acc ++ part) ++ keys rest.flatten).Nodup := by
      have : keys (acc ++ part) ++ keys rest.flatten =
          keys acc ++ keys (part :: rest).flatten := by
        simp [keys]
      rw [this]
      exact hnd
    rw [ih (acc ++ part) hnd2]
    simp

theorem allSlices_congr (c : ℕ) :
    ∀ (W : ℕ) (l l2 : List ℤ),
      (∀ w, w < W → sliceOfWorker l c w = sliceOfWorker l2 c w) →
      allSlices l c W = allSlices l2 c W := by
  intro W
  induction W with
  | zero => intro l l2 _; rfl
  | succ W ih =>
    intro l l2 h
    show (match allSlices l c W, sliceOfWorker l c W with
      | some pre, some s => some (pre ++ [s])
      | _, _ => none) =
      (match allSlices l2 c W, sliceOfWorker l2 c W with
      | some pre, some s => some (pre ++ [s])
      | _, _ => none)
    rw [ih l l2 (fun w hw => h w (by omega)), h W (by omega)]

theorem allSlices_flatten (c : ℕ) (hc : 1 ≤ c) :
    ∀ (W : ℕ) (l : List ℤ), (W - 1) * c ≤ l.length → l.length ≤ W * c →
      ∃ sl, allSlices l c W = some sl ∧ sl.flatten = l := by
  intro W
  induction W with
  | zero =>
    intro l _ h2
    simp only [Nat.zero_mul, Nat.le_zero, List.length_eq_zero] at h2
    subst h2
    exact ⟨[], rfl, rfl⟩
  | succ W ih =>
    intro l h1 h2
    simp only [Nat.add_sub_cancel] at h1
    have hlen2 : (l.take (W * c)).length = W * c := by
      rw [List.length_take]
      omega
    obtain ⟨sl, hsl, hjoin⟩ := ih (l.take (W * c))
      (by rw [hlen2]; exact Nat.mul_le_mul_right c (Nat.sub_le W 1))
      (le_of_eq hlen2)
    have hcong : allSlices l c W = allSlices (l.take (W * c)) c W := by
      apply allSlices_congr
      intro w hw
      have hmul : (w + 1) * c = w * c + c := by ring
      have hwc : w * c + c ≤ W * c := by
        have h3 : (w + 1) * c ≤ W * c := Nat.mul_le_mul_right c (by omega)
        omega
      have hA : w * c ≤ W * c := by omega
      have hB : w * c ≤ l.length := le_trans hA h1
      have hC : w * c ≤ (l.take (W * c)).length := by rw [hlen2]; exact hA
      unfold sliceOfWorker
      rw [if_pos hB, if_pos hC, List.take_take]
      have hmin : min (w * c + c) (W * c) = w * c + c := by omega
      rw [hmin]
    have hlast : sliceOfWorker l c W = some (l.drop (W * c)) := by
      unfold sliceOfWorker
      rw [if_pos h1]
      rw [List.drop_take]
      congr 1
      have : W * c + c - W * c = c := by omega
      rw [this]
      apply List.take_of_length_le
      rw [List.length_drop]
      have : (W + 1) * c = W * c + c := by ring
      omega
    refine ⟨sl ++ [l.drop (W * c)], ?_, ?_⟩
    · show (match allSlices l c W, sliceOfWorker l c W with
        | some pre, some s => some (pre ++ [s])
        | _, _ => none) = some (sl ++ [l.drop (W * c)])
      rw [hcong, hsl, hlast]
    · rw [List.flatten_append, hjoin]
      simp

end Rec

namespace Rec

variable {α : Type} [LinearOrderedField α]

/-- Parallel pipeline under a positive neighborK and an exhaustive,
in-bounds slicing: the merged score map lists every candidate with its
scoreItem value, in candidate order — the same map the sequential
pipeline builds. -/
theorem RecommendItemBasedParallel_eq (sim : Vec α → Vec α → α) (ds : Dataset α)
    (user topK nK workers : ℤ) (ur : Vec α) (hur : ds.lookup user = some ur)
    (hnk : 1 ≤ nK) (hw : 1 ≤ workers)
    (hcov1 : (workers.toNat - 1) *
        max 1 ((candidatesOf (BuildItemIndex ds) ur).length / workers.toNat) ≤
        (candidatesOf (BuildItemIndex ds) ur).length)
    (hcov2 : (candidatesOf (BuildItemIndex ds) ur).length ≤ workers.toNat *
        max 1 ((candidatesOf (BuildItemIndex ds) ur).length / workers.toNat)) :
    RecommendItemBasedParallel sim ds user topK nK workers =
      topKFromMap ((candidatesOf (BuildItemIndex ds) ur).map fun v =>
        (v, scoreItemVal sim ds ur (BuildItemIndex ds) v nK)) topK := by
  have hwne : ¬ workers = 0 := by omega
  have hcnodup : (candidatesOf (BuildItemIndex ds) ur).Nodup :=
    candidatesOf_nodup _ _ (BuildItemIndex_nodup_keys ds)
  have hc1 : 1 ≤ max 1 ((candidatesOf (BuildItemIndex ds) ur).length / workers.toNat) :=
    le_max_left _ _
  obtain ⟨sl, hsl, hflat⟩ := allSlices_flatten
    (max 1 ((candidatesOf (BuildItemIndex ds) ur).length / workers.toNat)) hc1
    workers.toNat (candidatesOf (BuildItemIndex ds) ur) hcov1 hcov2
  have hslnodup : ∀ s ∈ sl, s.Nodup := by
    have : sl.flatten.Nodup := by rw [hflat]; exact hcnodup
    exact (List.nodup_flatten.mp this).1
  have hparts := partsOf_eq sim ds ur (BuildItemIndex ds) nK hnk sl hslnodup
  have hkeysnodup : (keys ((sl.map fun s => s.map fun v =>
      (v, scoreItemVal sim ds ur (BuildItemIndex ds) v nK)).flatten)).Nodup := by
    rw [← List.map_flatten, hflat]
    have : keys ((candidatesOf (BuildItemIndex ds) ur).map fun v =>
        (v, scoreItemVal sim ds ur (BuildItemIndex ds) v nK)) =
        candidatesOf (BuildItemIndex ds) ur := by
      simp only [keys, List.map_map]
      have hcomp : (Prod.fst ∘ fun v : ℤ =>
          (v, scoreItemVal sim ds ur (BuildItemIndex ds) v nK)) = id := by
        funext v
        rfl
      rw [hcomp, List.map_id]
    rw [this]
    exact hcnodup
  have hmerge := mergeParts_eq _ hkeysnodup
  unfold RecommendItemBasedParallel
  rw [hur]
  simp only [if_neg hwne, hsl, hparts, hmerge]
  rw [← List.map_flatten, hflat]

end Rec

/-- Claim C2, counterexample: with 3 candidates and 2 workers the
chunked slicing covers only candidates[0:1] and candidates[1:2], so the
parallel recommender silently drops the last candidate and its output
differs from the sequential one (topK 10, neighborK 1, exact rational
Jaccard metric). -/
theorem C2_counterexample :
    Rec.RecommendItemBasedParallel Rec.JaccardQ Rec.exDs3 1 10 1 2 ≠
      Rec.RecommendItemBased Rec.JaccardQ Rec.exDs3 1 10 1 := by
  have hp : Rec.RecommendItemBasedParallel Rec.JaccardQ Rec.exDs3 1 10 1 2 =
      some [⟨20, 1⟩, ⟨30, 1⟩] := by
    simp [Rec.RecommendItemBasedParallel, Rec.BuildItemIndex, Rec.candidatesOf,
      Rec.allSlices, Rec.sliceOfWorker, Rec.partsOf, Rec.slicePartGo, Rec.scoreItem,
      Rec.mergeParts, Rec.simScoresFor, Rec.topNneighborsFromScores, Rec.topNGo,
      Rec.heapPush, List.orderedInsert, Rec.topKFromMap, List.insertionSort,
      Rec.lookupD, Rec.upsert, Rec.keys, Rec.JaccardQ, ML.Jaccard, ML.interCount,
      ML.unionCard, Rec.exDs3, List.lookup]
    norm_num
  have hs : Rec.RecommendItemBased Rec.JaccardQ Rec.exDs3 1 10 1 =
      some [⟨20, 1⟩, ⟨30, 1⟩, ⟨40, 1⟩] := by
    simp [Rec.RecommendItemBased, Rec.BuildItemIndex, Rec.candidatesOf,
      Rec.seqScoresGo, Rec.seqCandScore, Rec.simScoresFor, Rec.abs,
      Rec.topNneighborsFromScores, Rec.topNGo, Rec.heapPush, List.orderedInsert,
      Rec.topKFromMap, List.insertionSort,
      Rec.lookupD, Rec.upsert, Rec.keys, Rec.JaccardQ, ML.Jaccard, ML.interCount,
      ML.unionCard, Rec.exDs3, List.lookup]
    norm_num
  rw [hp, hs]
  simp

/-- Claim C2 as amended: for every similarity function, dataset, target
user, topK of at least 1 and neighborK of at least 1, and every worker
count W of at least 1 whose chunked slicing is exhaustive and in
bounds — (W-1)*chunk does not pass the candidate count and W*chunk
reaches it, where chunk = max(1, candidates/W); this holds in
particular whenever W divides the candidate count or W is at least the
candidate count, and fails exactly on the dropped-remainder and
out-of-range-slice cases of the counterexample — the parallel
recommender returns exactly the sequential result (exact equality of
the full ranked sequence in the real-valued model, hence equality
within floating-point tolerance of the Go floats). -/
theorem C2_parallel_matches_sequential {α : Type} [LinearOrderedField α]
    (sim : Rec.Vec α → Rec.Vec α → α) (ds : Rec.Dataset α)
    (user topK nK workers : ℤ) (htopk : 1 ≤ topK) (hnk : 1 ≤ nK) (hw : 1 ≤ workers)
    (hcov1 : (workers.toNat - 1) *
        max 1 ((Rec.parCandidates ds user).length / workers.toNat) ≤
        (Rec.parCandidates ds user).length)
    (hcov2 : (Rec.parCandidates ds user).length ≤ workers.toNat *
        max 1 ((Rec.parCandidates ds user).length / workers.toNat)) :
    Rec.RecommendItemBasedParallel sim ds user topK nK workers =
      Rec.RecommendItemBased sim ds user topK nK := by
  cases hur : ds.lookup user with
  | none =>
    unfold Rec.RecommendItemBasedParallel Rec.RecommendItemBased
    rw [hur]
  | some ur =>
    have hpc : Rec.parCandidates ds user = Rec.candidatesOf (Rec.BuildItemIndex ds) ur := by
      unfold Rec.parCandidates
      rw [hur]
    rw [hpc] at hcov1 hcov2
    rw [Rec.RecommendItemBasedParallel_eq sim ds user topK nK workers ur hur hnk hw hcov1 hcov2,
      Rec.RecommendItemBased_eq sim ds user topK nK ur hur hnk]

/-- Claim C2, witness: 3 candidates with 3 workers (slicing exhaustive,
chunk 1) — parallel equals sequential. -/
theorem C2_witness :
    (1 : ℤ) ≤ 10 ∧ (1 : ℤ) ≤ 1 ∧ (1 : ℤ) ≤ 3 ∧
      ((3 : ℤ).toNat - 1) *
        max 1 ((Rec.parCandidates Rec.exDs3 1).length / (3 : ℤ).toNat) ≤
        (Rec.parCandidates Rec.exDs3 1).length ∧
      (Rec.parCandidates Rec.exDs3 1).length ≤ (3 : ℤ).toNat *
        max 1 ((Rec.parCandidates Rec.exDs3 1).length / (3 : ℤ).toNat) ∧
      Rec.RecommendItemBasedParallel Rec.JaccardQ Rec.exDs3 1 10 1 3 =
        Rec.RecommendItemBased Rec.JaccardQ Rec.exDs3 1 10 1 := by
  have hlen : (Rec.parCandidates Rec.exDs3 1).length = 3 := by
    simp [Rec.parCandidates, Rec.exDs3, Rec.BuildItemIndex, Rec.candidatesOf,
      Rec.upsert, Rec.lookupD, Rec.keys, List.lookup]
  refine ⟨by norm_num, by norm_num, by norm_num, ?_, ?_,
    C2_parallel_matches_sequential Rec.JaccardQ Rec.exDs3 1 10 1 3
      (by norm_num) (by norm_num) (by norm_num)
      (by rw [hlen]; decide) (by rw [hlen]; decide)⟩
  · rw [hlen]
    decide
  · rw [hlen]
    decide

/-- Claim C1: with 3 candidates (items 20, 30, 40) and 2 workers,
chunk = 3/2 = 1 and the two slices are candidates[0:1] and
candidates[1:2] — the last slice is never extended, so candidate 40 is
covered by no slice: the merged score mapping of the parallel
recommender contains only items 20 and 30, while the sequential
recommender scores all three.  The trailing candidate is silently
dropped, contradicting the claimed exactly-once cover. -/
theorem C1_parallel_drops_trailing_candidate :
    (Rec.RecommendItemBasedParallel Rec.JaccardQ Rec.exDs3 1 10 1 2).map
        (List.map Rec.ItemScore.MovieID) = some [20, 30] ∧
      (Rec.RecommendItemBased Rec.JaccardQ Rec.exDs3 1 10 1).map
        (List.map Rec.ItemScore.MovieID) = some [20, 30, 40] := by
  constructor
  · have hp : Rec.RecommendItemBasedParallel Rec.JaccardQ Rec.exDs3 1 10 1 2 =
        some [⟨20, 1⟩, ⟨30, 1⟩] := by
      simp [Rec.RecommendItemBasedParallel, Rec.BuildItemIndex, Rec.candidatesOf,
        Rec.allSlices, Rec.sliceOfWorker, Rec.partsOf, Rec.slicePartGo, Rec.scoreItem,
        Rec.mergeParts, Rec.simScoresFor, Rec.topNneighborsFromScores, Rec.topNGo,
        Rec.heapPush, List.orderedInsert, Rec.topKFromMap, List.insertionSort,
        Rec.lookupD, Rec.upsert, Rec.keys, Rec.JaccardQ, ML.Jaccard, ML.interCount,
        ML.unionCard, Rec.exDs3, List.lookup]
      norm_num
    rw [hp]
    rfl
  · have hs : Rec.RecommendItemBased Rec.JaccardQ Rec.exDs3 1 10 1 =
        some [⟨20, 1⟩, ⟨30, 1⟩, ⟨40, 1⟩] := by
      simp [Rec.RecommendItemBased, Rec.BuildItemIndex, Rec.candidatesOf,
        Rec.seqScoresGo, Rec.seqCandScore, Rec.simScoresFor, Rec.abs,
        Rec.topNneighborsFromScores, Rec.topNGo, Rec.heapPush, List.orderedInsert,
        Rec.topKFromMap, List.insertionSort,
        Rec.lookupD, Rec.upsert, Rec.keys, Rec.JaccardQ, ML.Jaccard, ML.interCount,
        ML.unionCard, Rec.exDs3, List.lookup]
      norm_num
    rw [hs]
    rfl
